import Mathlib

/-!
RISC-V (RV32I) emulator: shallow embedding of `main.cpp`.

The class `RISCVCpu` of `main.cpp` is embedded as a record of lists of naturals.
`uint32_t` values are naturals reduced modulo `2 ^ 32`, `uint8_t` values are naturals
below `256`, `int32_t` values are integers in `[-2 ^ 31, 2 ^ 31)`, and `size_t` is taken to be
64 bits wide.  A C++ exception is embedded as an explicit outcome next to the state that
the machine has at the moment of the throw.
-/

namespace RISCV

/-! ## Machine integers -/

/-- Conversion of an `int32_t` to `uint32_t` (two's complement). -/
def toU32 (i : Int) : Nat := (i % 2 ^ 32).toNat

/-- Conversion of a `uint32_t` to `int32_t` (two's complement). -/
def toS32 (n : Nat) : Int :=
  if n % 2 ^ 32 < 2 ^ 31 then ((n % 2 ^ 32 : Nat) : Int) else ((n % 2 ^ 32 : Nat) : Int) - 2 ^ 32

/-- Conversion `(int32_t)(int8_t)x` of a `uint32_t`: keep the low byte, read it as signed. -/
def toS8 (n : Nat) : Int :=
  if n % 2 ^ 8 < 2 ^ 7 then ((n % 2 ^ 8 : Nat) : Int) else ((n % 2 ^ 8 : Nat) : Int) - 2 ^ 8

/-- Conversion `(int32_t)(int16_t)x` of a `uint32_t`: keep the low half-word, read it as
signed. -/
def toS16 (n : Nat) : Int :=
  if n % 2 ^ 16 < 2 ^ 15 then ((n % 2 ^ 16 : Nat) : Int) else ((n % 2 ^ 16 : Nat) : Int) - 2 ^ 16

/-- Arithmetic in `size_t` (64 bits). -/
def sizeT (n : Nat) : Nat := n % 2 ^ 64

/-! ## Machine state and outcomes -/

deriving instance DecidableEq for Except

/-- The exceptions thrown by the emulator, by their message. -/
inductive Fatal where
  /-- `std::out_of_range("Memory access out of bounds")` -/
  | out_of_range
  /-- `std::runtime_error("Unsupported instruction")` -/
  | unsupported_instruction
  /-- `std::runtime_error("EBREAK encountered")` -/
  | ebreak
  /-- `std::runtime_error("Unsupported syscall")` -/
  | unsupported_syscall
  deriving DecidableEq, Repr

/-- How a state-changing operation ends: it returns, it throws, or it calls `exit`. -/
inductive Outcome where
  | done
  | fatal (f : Fatal)
  | exited (status : Nat)
  deriving DecidableEq, Repr

/-- The fields of `class RISCVCpu`, and `out`, the bytes written to `std::cout` so far. -/
structure RISCVCpu where
  reg : List Nat
  pc : Nat
  mem : List Nat
  out : List Nat
  deriving DecidableEq, Repr

/-- A state-changing operation yields the state it leaves behind and its outcome. -/
structure Effect where
  cpu : RISCVCpu
  outcome : Outcome
  deriving DecidableEq, Repr

/-- The constructor `RISCVCpu(size_t memory_size)`. -/
def RISCVCpu.new (memory_size : Nat) : RISCVCpu :=
  { reg := List.replicate 32 0, pc := 0, mem := List.replicate memory_size 0, out := [] }

/-- The body of `std::copy(program.begin(), program.end(), mem.begin() + address)`. -/
def copy : List Nat → Nat → List Nat → List Nat
  | [], _, mem => mem
  | b :: program, at_, mem => copy program (at_ + 1) (mem.set at_ b)

/-- The method `load_program`: `resize` appends zero bytes. -/
def load_program (c : RISCVCpu) (program : List Nat) (address : Nat) : RISCVCpu :=
  let mem1 :=
    if sizeT (address + program.length) > c.mem.length then
      c.mem ++ List.replicate (sizeT (address + program.length) - c.mem.length) 0
    else c.mem
  { c with mem := copy program address mem1, pc := address }

/-! ## Memory -/

/-- The loop of `read_mem`: `value |= mem[addr + i] << (i * 8)` for `i` from `0` up to
`size`, starting from `value = 0`. -/
def read_loop (mem : List Nat) (addr size : Nat) : Nat :=
  (List.range size).foldl (fun value i => value ||| (mem.getD (addr + i) 0 <<< (i * 8)) % 2 ^ 32) 0

/-- The method `read_mem`: the bounds check, then the loop. -/
def read_mem (c : RISCVCpu) (addr size : Nat) : Except Fatal Nat :=
  if sizeT (addr + size) > c.mem.length then .error .out_of_range
  else .ok (read_loop c.mem addr size)

/-- The loop of `write_mem`: `mem[addr + i] = (value >> (i * 8)) & 0xFF` for `i` from `0` up
to `size`. -/
def write_loop (mem : List Nat) (addr value size : Nat) : List Nat :=
  (List.range size).foldl (fun mem i => mem.set (addr + i) ((value >>> (i * 8)) &&& 0xFF)) mem

/-- The method `write_mem`: the bounds check, then the loop. -/
def write_mem (c : RISCVCpu) (addr value size : Nat) : Effect :=
  if sizeT (addr + size) > c.mem.length then ⟨c, .fatal .out_of_range⟩
  else ⟨{ c with mem := write_loop c.mem addr value size }, .done⟩

/-! ## Decoder -/

/-- The struct `Instruction`. -/
structure Instruction where
  opcode : Nat
  rd : Nat
  rs1 : Nat
  rs2 : Nat
  funct3 : Nat
  funct7 : Nat
  imm : Int
  deriving DecidableEq, Repr

/-- The `switch` of `decode` that assembles the immediate. -/
def decode_imm (instr opcode : Nat) : Int :=
  if opcode = 0x03 ∨ opcode = 0x13 ∨ opcode = 0x67 ∨ opcode = 0x73 then
    toS32 instr >>> (20 : Nat)
  else if opcode = 0x23 then
    let imm := toS32 (((instr >>> 7) &&& 0x1F) ||| ((instr >>> 25) <<< 5) % 2 ^ 32)
    toS32 ((toU32 imm <<< 20) % 2 ^ 32) >>> (20 : Nat)
  else if opcode = 0x63 then
    let imm := toS32 (((instr >>> 7) &&& 0x1E) |||
                      ((instr >>> 20) &&& 0x7E0) |||
                      (((instr <<< 4) % 2 ^ 32) &&& 0x800) |||
                      ((instr >>> 31) <<< 11) % 2 ^ 32)
    toS32 ((toU32 imm <<< 19) % 2 ^ 32) >>> (19 : Nat)
  else if opcode = 0x37 ∨ opcode = 0x17 then
    toS32 (instr &&& 0xFFFFF000)
  else if opcode = 0x6F then
    let imm := toS32 (((instr >>> 21) &&& 0x3FF) |||
                      ((instr >>> 10) &&& 0x400) |||
                      (instr &&& 0x7F800000) |||
                      ((instr >>> 11) &&& 0x80000000))
    toS32 ((toU32 imm <<< 11) % 2 ^ 32) >>> (11 : Nat)
  else 0

/-- The method `decode`. -/
def decode (instr : Nat) : Instruction :=
  { opcode := instr &&& 0x7F
    rd := (instr >>> 7) &&& 0x1F
    funct3 := (instr >>> 12) &&& 0x7
    rs1 := (instr >>> 15) &&& 0x1F
    rs2 := (instr >>> 20) &&& 0x1F
    funct7 := (instr >>> 25) &&& 0x7F
    imm := decode_imm instr (instr &&& 0x7F) }

/-! ## Executor -/

/-- The inner `switch` of `case 0x13` (OP-IMM): the value of `result`. -/
def op_imm (funct3 rs1_val : Nat) (imm : Int) : Nat :=
  if funct3 = 0x0 then (rs1_val + toU32 imm) % 2 ^ 32
  else if funct3 = 0x1 then (rs1_val <<< (toU32 imm &&& 0x1F)) % 2 ^ 32
  else if funct3 = 0x2 then (if toS32 rs1_val < imm then 1 else 0)
  else if funct3 = 0x3 then (if rs1_val < toU32 imm then 1 else 0)
  else if funct3 = 0x4 then rs1_val ^^^ toU32 imm
  else if funct3 = 0x5 then
    (if imm >>> (5 : Nat) = 0 then rs1_val >>> (toU32 imm &&& 0x1F)
     else toU32 (toS32 rs1_val >>> (toU32 imm &&& 0x1F)))
  else if funct3 = 0x6 then rs1_val ||| toU32 imm
  else if funct3 = 0x7 then rs1_val &&& toU32 imm
  else 0

/-- The inner `switch` of `case 0x33` (OP): the value of `result`. -/
def op (funct3 funct7 rs1_val rs2_val : Nat) : Nat :=
  if funct3 = 0x0 then
    (if funct7 = 0x20 then toU32 ((rs1_val : Int) - (rs2_val : Int))
     else (rs1_val + rs2_val) % 2 ^ 32)
  else if funct3 = 0x1 then (rs1_val <<< (rs2_val &&& 0x1F)) % 2 ^ 32
  else if funct3 = 0x2 then (if toS32 rs1_val < toS32 rs2_val then 1 else 0)
  else if funct3 = 0x3 then (if rs1_val < rs2_val then 1 else 0)
  else if funct3 = 0x4 then rs1_val ^^^ rs2_val
  else if funct3 = 0x5 then
    (if funct7 = 0x20 then toU32 (toS32 rs1_val >>> (rs2_val &&& 0x1F))
     else rs1_val >>> (rs2_val &&& 0x1F))
  else if funct3 = 0x6 then rs1_val ||| rs2_val
  else if funct3 = 0x7 then rs1_val &&& rs2_val
  else 0

/-- The inner `switch` of `case 0x03` (LOAD): the value of `result`, or the exception of
`read_mem`. -/
def load (c : RISCVCpu) (funct3 rs1_val : Nat) (imm : Int) : Except Fatal Nat :=
  let addr := (rs1_val + toU32 imm) % 2 ^ 32
  if funct3 = 0x0 then (read_mem c addr 1).map (fun v => toU32 (toS8 v))
  else if funct3 = 0x1 then (read_mem c addr 2).map (fun v => toU32 (toS16 v))
  else if funct3 = 0x2 then read_mem c addr 4
  else if funct3 = 0x4 then read_mem c addr 1
  else if funct3 = 0x5 then read_mem c addr 2
  else .ok 0

/-- The inner `switch` of `case 0x23` (STORE). -/
def store (c : RISCVCpu) (funct3 rs1_val rs2_val : Nat) (imm : Int) : Effect :=
  let addr := (rs1_val + toU32 imm) % 2 ^ 32
  if funct3 = 0x0 then write_mem c addr rs2_val 1
  else if funct3 = 0x1 then write_mem c addr rs2_val 2
  else if funct3 = 0x2 then write_mem c addr rs2_val 4
  else ⟨c, .done⟩

/-- The inner `switch` of `case 0x63` (BRANCH): the value of `branch_taken`. -/
def branch (funct3 rs1_val rs2_val : Nat) : Bool :=
  if funct3 = 0x0 then decide (rs1_val = rs2_val)
  else if funct3 = 0x1 then decide (rs1_val ≠ rs2_val)
  else if funct3 = 0x4 then decide (toS32 rs1_val < toS32 rs2_val)
  else if funct3 = 0x5 then decide (toS32 rs1_val ≥ toS32 rs2_val)
  else if funct3 = 0x6 then decide (rs1_val < rs2_val)
  else if funct3 = 0x7 then decide (rs1_val ≥ rs2_val)
  else false

/-- The statement `if (ins.rd) reg[ins.rd] = result;`. -/
def write_rd (c : RISCVCpu) (rd result : Nat) : RISCVCpu :=
  if rd ≠ 0 then { c with reg := c.reg.set rd result } else c

/-- The loop of `handle_ecall`, `case 4`: the first argument is the number of iterations
left, the second is `i`. -/
def ecall_write : Nat → Nat → RISCVCpu → Effect
  | 0, _, c => ⟨c, .done⟩
  | n + 1, i, c =>
    match read_mem c ((c.reg.getD 11 0 + i) % 2 ^ 32) 1 with
    | .error f => ⟨c, .fatal f⟩
    | .ok b => ecall_write n (i + 1) { c with out := c.out ++ [b % 256] }

/-- The method `handle_ecall`. -/
def handle_ecall (c : RISCVCpu) : Effect :=
  if c.reg.getD 17 0 = 1 then ⟨c, .exited (c.reg.getD 10 0)⟩
  else if c.reg.getD 17 0 = 4 then ecall_write (c.reg.getD 12 0) 0 c
  else ⟨c, .fatal .unsupported_syscall⟩

/-- The `switch` of `case 0x73` (SYSTEM). -/
def system (c : RISCVCpu) (funct3 : Nat) (imm : Int) : Effect :=
  if funct3 = 0x0 then
    (if imm = 0x0 then handle_ecall c
     else if imm = 0x1 then ⟨c, .fatal .ebreak⟩
     else ⟨c, .done⟩)
  else ⟨c, .done⟩

/-- The last two statements of `execute`: `reg[0] = 0; pc = next_pc;`. -/
def finish (c : RISCVCpu) (next_pc : Nat) : Effect :=
  ⟨{ c with reg := c.reg.set 0 0, pc := next_pc }, .done⟩

/-- The end of `execute` after a case of the `switch` that may throw or exit: the last two
statements run only when the case returned. -/
def then_finish (e : Effect) (next_pc : Nat) : Effect :=
  match e.outcome with
  | .done => finish e.cpu next_pc
  | _ => e

/-- The method `execute`. -/
def execute (c : RISCVCpu) (ins : Instruction) : Effect :=
  let next_pc := (c.pc + 4) % 2 ^ 32
  let rs1_val := c.reg.getD ins.rs1 0
  let rs2_val := c.reg.getD ins.rs2 0
  if ins.opcode = 0x13 then
    finish (write_rd c ins.rd (op_imm ins.funct3 rs1_val ins.imm)) next_pc
  else if ins.opcode = 0x33 then
    finish (write_rd c ins.rd (op ins.funct3 ins.funct7 rs1_val rs2_val)) next_pc
  else if ins.opcode = 0x03 then
    match load c ins.funct3 rs1_val ins.imm with
    | .error f => ⟨c, .fatal f⟩
    | .ok result => finish (write_rd c ins.rd result) next_pc
  else if ins.opcode = 0x23 then
    then_finish (store c ins.funct3 rs1_val rs2_val ins.imm) next_pc
  else if ins.opcode = 0x63 then
    finish c (if branch ins.funct3 rs1_val rs2_val then (c.pc + toU32 ins.imm) % 2 ^ 32
              else next_pc)
  else if ins.opcode = 0x6F then
    finish (write_rd c ins.rd ((c.pc + 4) % 2 ^ 32)) ((c.pc + toU32 ins.imm) % 2 ^ 32)
  else if ins.opcode = 0x67 then
    finish (write_rd c ins.rd ((c.pc + 4) % 2 ^ 32))
      (((rs1_val + toU32 ins.imm) % 2 ^ 32) &&& 0xFFFFFFFE)
  else if ins.opcode = 0x37 then
    finish (write_rd c ins.rd (toU32 ins.imm)) next_pc
  else if ins.opcode = 0x17 then
    finish (write_rd c ins.rd ((c.pc + toU32 ins.imm) % 2 ^ 32)) next_pc
  else if ins.opcode = 0x73 then
    then_finish (system c ins.funct3 ins.imm) next_pc
  else ⟨c, .fatal .unsupported_instruction⟩

/-- The body of the loop of `run`: fetch, decode, execute. -/
def step (c : RISCVCpu) : Effect :=
  match read_mem c c.pc 4 with
  | .error f => ⟨c, .fatal f⟩
  | .ok instr => execute c (decode instr)

/-- The method `run`: the loop, cut after `fuel` iterations. The result is the effect of the
step that stopped the loop, or `none` when the loop is still going after `fuel` steps. -/
def run : Nat → RISCVCpu → Option Effect
  | 0, _ => none
  | fuel + 1, c =>
    if (step c).outcome = .done then run fuel (step c).cpu else some (step c)

/-- The states a machine goes through: built with `memory_size` bytes, loaded with `program`
at `address`, then stepped any number of times, each step completed or aborted. -/
inductive Reachable (memory_size : Nat) (program : List Nat) (address : Nat) :
    RISCVCpu → Prop where
  | loaded : Reachable memory_size program address
      (load_program (RISCVCpu.new memory_size) program address)
  | stepped (c : RISCVCpu) : Reachable memory_size program address c →
      Reachable memory_size program address (step c).cpu

/-! ## Vocabulary of the specification -/

/-- The field `bits[hi:lo]` of a word. -/
def bits (w hi lo : Nat) : Nat := (w >>> lo) % 2 ^ (hi + 1 - lo)

/-- The value of a `(k + 1)`-bit field sign-extended from bit `k`. -/
def signExtend (k : Nat) (v : Nat) : Int :=
  if v % 2 ^ (k + 1) < 2 ^ k then ((v % 2 ^ (k + 1) : Nat) : Int)
  else ((v % 2 ^ (k + 1) : Nat) : Int) - 2 ^ (k + 1)

/-- The encoding of `addi rd, rs1, imm`: `(imm12 << 20) | (rs1 << 15) | (rd << 7) | 0x13` with
`imm12` the 12-bit two's-complement encoding of `imm`. -/
def addi_word (rd rs1 : Nat) (imm : Int) : Nat :=
  ((imm % 4096).toNat <<< 20) ||| (rs1 <<< 15) ||| (rd <<< 7) ||| 0x13

/-- What an effect `e` started in state `c` keeps: the number of registers; register 0 at zero
when it completes; and, when it does not complete, registers, memory and program counter as
they were, with an output that has only grown. -/
def Framed (c : RISCVCpu) (e : Effect) : Prop :=
  e.cpu.reg.length = c.reg.length ∧
  (e.outcome = .done → 0 < c.reg.length → e.cpu.reg[0]? = some 0) ∧
  (e.outcome ≠ .done →
    e.cpu.reg = c.reg ∧ e.cpu.mem = c.mem ∧ e.cpu.pc = c.pc ∧ ∃ s, e.cpu.out = c.out ++ s)

/-- The bytes `mem[a1 + i], ..., mem[a1 + i + k - 1]`, addresses taken modulo `2 ^ 32`, as the
write system call emits them (`a1` is register 11). -/
def emitted (c : RISCVCpu) (i k : Nat) : List Nat :=
  (List.range k).map (fun j => c.mem.getD ((c.reg.getD 11 0 + (i + j)) % 2 ^ 32) 0 % 256)

/-- The condition under which `execute` reaches the loop of the write system call: the
instruction is `ecall` and register 17 holds 4. -/
def is_write_call (c : RISCVCpu) (ins : Instruction) : Prop :=
  ins.opcode = 0x73 ∧ ins.funct3 = 0 ∧ ins.imm = 0 ∧ c.reg.getD 17 0 = 4

/-- A machine of 6 bytes of memory: `ecall` at address 0, then the bytes `'h'`, `'i'`; the
registers ask for a write (`a7 = 4`) of 3 bytes (`a2 = 3`) from address 4 (`a1 = 4`). -/
def write_past_end : RISCVCpu :=
  { reg := (((List.replicate 32 0).set 17 4).set 11 4).set 12 3
    pc := 0
    mem := [0x73, 0, 0, 0, 0x68, 0x69]
    out := [] }

/-- A machine of 8 bytes of memory that holds `lw x1, 8(x0)` at address 0. -/
def load_past_end : RISCVCpu :=
  { reg := List.replicate 32 0, pc := 0, mem := [0x83, 0x20, 0x80, 0x00, 0, 0, 0, 0], out := [] }

/-! ## Variants of the executor, to compare ways of keeping register 0 at zero -/

/-- Variant of `write_rd` that performs every destination write: `reg[ins.rd] = result;`
without the test of `ins.rd`. -/
def write_rd_always (c : RISCVCpu) (rd result : Nat) : RISCVCpu :=
  { c with reg := c.reg.set rd result }

/-- Variant of `finish` that never re-zeroes register 0: `pc = next_pc;` alone. -/
def finish_keep (c : RISCVCpu) (next_pc : Nat) : Effect :=
  ⟨{ c with pc := next_pc }, .done⟩

/-- Variant of `then_finish` with the end of the step as a parameter. -/
def then_finish_with (fin : RISCVCpu → Nat → Effect) (e : Effect) (next_pc : Nat) : Effect :=
  match e.outcome with
  | .done => fin e.cpu next_pc
  | _ => e

/-- The method `execute` with the destination write `wr` and the end of the step `fin` as
parameters; `execute_with write_rd finish` is `execute`. -/
def execute_with (wr : RISCVCpu → Nat → Nat → RISCVCpu) (fin : RISCVCpu → Nat → Effect)
    (c : RISCVCpu) (ins : Instruction) : Effect :=
  let next_pc := (c.pc + 4) % 2 ^ 32
  let rs1_val := c.reg.getD ins.rs1 0
  let rs2_val := c.reg.getD ins.rs2 0
  if ins.opcode = 0x13 then
    fin (wr c ins.rd (op_imm ins.funct3 rs1_val ins.imm)) next_pc
  else if ins.opcode = 0x33 then
    fin (wr c ins.rd (op ins.funct3 ins.funct7 rs1_val rs2_val)) next_pc
  else if ins.opcode = 0x03 then
    match load c ins.funct3 rs1_val ins.imm with
    | .error f => ⟨c, .fatal f⟩
    | .ok result => fin (wr c ins.rd result) next_pc
  else if ins.opcode = 0x23 then
    then_finish_with fin (store c ins.funct3 rs1_val rs2_val ins.imm) next_pc
  else if ins.opcode = 0x63 then
    fin c (if branch ins.funct3 rs1_val rs2_val then (c.pc + toU32 ins.imm) % 2 ^ 32
           else next_pc)
  else if ins.opcode = 0x6F then
    fin (wr c ins.rd ((c.pc + 4) % 2 ^ 32)) ((c.pc + toU32 ins.imm) % 2 ^ 32)
  else if ins.opcode = 0x67 then
    fin (wr c ins.rd ((c.pc + 4) % 2 ^ 32))
      (((rs1_val + toU32 ins.imm) % 2 ^ 32) &&& 0xFFFFFFFE)
  else if ins.opcode = 0x37 then
    fin (wr c ins.rd (toU32 ins.imm)) next_pc
  else if ins.opcode = 0x17 then
    fin (wr c ins.rd ((c.pc + toU32 ins.imm) % 2 ^ 32)) next_pc
  else if ins.opcode = 0x73 then
    then_finish_with fin (system c ins.funct3 ins.imm) next_pc
  else ⟨c, .fatal .unsupported_instruction⟩

/-- The executor that skips destination writes when `rd = 0` and never re-zeroes. -/
def execute_skip (c : RISCVCpu) (ins : Instruction) : Effect :=
  execute_with write_rd finish_keep c ins

/-- The executor that performs every destination write and sets register 0 to zero at the end
of the step. -/
def execute_rezero (c : RISCVCpu) (ins : Instruction) : Effect :=
  execute_with write_rd_always finish c ins

/-! ## Example programs and states -/

/-- The program `addi x1, x0, 5; addi x2, x1, 10`. -/
def addi_program : List Nat := [0x93, 0x00, 0x50, 0x00, 0x13, 0x81, 0xA0, 0x00]

/-- The program `lui x1, 0x1; addi x1, x1, -1`. -/
def lui_addi_program : List Nat := [0xB7, 0x10, 0x00, 0x00, 0x93, 0x80, 0xF0, 0xFF]

/-- The program `addi a7, x0, 1; addi a0, x0, 42; ecall`. -/
def exit_program : List Nat :=
  [0x93, 0x08, 0x10, 0x00, 0x13, 0x05, 0xA0, 0x02, 0x73, 0x00, 0x00, 0x00]

/-- A machine of 7 bytes of memory: `ecall` at address 0, then the bytes `'h'`, `'i'`,
`'\\n'`; the registers ask for a write (`a7 = 4`) of 3 bytes (`a2 = 3`) from address 4
(`a1 = 4`). -/
def write_hi : RISCVCpu :=
  { reg := (((List.replicate 32 0).set 17 4).set 11 4).set 12 3
    pc := 0
    mem := [0x73, 0, 0, 0, 0x68, 0x69, 0x0A]
    out := [] }

/-- The machine `exit_program` leaves in front of its `ecall`: `a7 = 1`, `a0 = 42`, program
counter 8, in a memory that holds the program alone. -/
def at_exit_call : RISCVCpu :=
  { reg := ((List.replicate 32 0).set 17 1).set 10 42, pc := 8, mem := exit_program, out := [] }

/-! ## Memory: lemmas and theorems -/

theorem sizeT_of_lt (n : Nat) (h : n < 2 ^ 64) : sizeT n = n := by
  unfold sizeT; omega

theorem getD_lt_of_forall (mem : List Nat) (h : ∀ b ∈ mem, b < 256) (j : Nat) :
    mem.getD j 0 < 256 := by
  by_cases hj : j < mem.length
  · rw [List.getD_eq_getElem _ _ hj]
    exact h _ (List.getElem_mem hj)
  · rw [List.getD_eq_default _ _ (by omega)]
    omega

theorem or_shift_eq_add (a b k : Nat) (h : a < 2 ^ k) : a ||| (b <<< k) = a + b * 2 ^ k := by
  rw [Nat.shiftLeft_eq, Nat.lor_comm, Nat.mul_comm, ← Nat.mul_add_lt_is_or h, Nat.add_comm]

theorem or_bytes1 (b0 : Nat) (h0 : b0 < 256) :
    (0 ||| (b0 <<< (0 * 8)) % 2 ^ 32) = b0 := by
  simp; omega

theorem or_bytes2 (b0 b1 : Nat) (h0 : b0 < 256) (h1 : b1 < 256) :
    (0 ||| (b0 <<< (0 * 8)) % 2 ^ 32 ||| (b1 <<< (1 * 8)) % 2 ^ 32) = b0 + b1 * 256 := by
  rw [or_bytes1 b0 h0, Nat.mod_eq_of_lt, or_shift_eq_add] <;> simp [Nat.shiftLeft_eq] <;> omega

theorem or_bytes4 (b0 b1 b2 b3 : Nat) (h0 : b0 < 256) (h1 : b1 < 256) (h2 : b2 < 256)
    (h3 : b3 < 256) :
    (0 ||| (b0 <<< (0 * 8)) % 2 ^ 32 ||| (b1 <<< (1 * 8)) % 2 ^ 32 ||| (b2 <<< (2 * 8)) % 2 ^ 32
      ||| (b3 <<< (3 * 8)) % 2 ^ 32) = b0 + b1 * 256 + b2 * 65536 + b3 * 16777216 := by
  have e2 : (b2 <<< (2 * 8)) % 2 ^ 32 = b2 <<< 16 := by
    rw [Nat.mod_eq_of_lt]; simp [Nat.shiftLeft_eq]; omega
  have e3 : (b3 <<< (3 * 8)) % 2 ^ 32 = b3 <<< 24 := by
    rw [Nat.mod_eq_of_lt]; simp [Nat.shiftLeft_eq]; omega
  rw [or_bytes2 b0 b1 h0 h1, e2, e3, or_shift_eq_add _ _ 16 (by omega),
    or_shift_eq_add _ _ 24 (by omega)]
  norm_num

theorem read_mem_ok (c : RISCVCpu) (addr size : Nat) (h : sizeT (addr + size) ≤ c.mem.length) :
    read_mem c addr size = .ok (read_loop c.mem addr size) := by
  unfold read_mem
  rw [if_neg (by omega)]

theorem range_one : List.range 1 = [0] := rfl
theorem range_two : List.range 2 = [0, 1] := rfl
theorem range_four : List.range 4 = [0, 1, 2, 3] := rfl

/-- Length of memory after the store loop. -/
theorem write_loop_length (addr value : Nat) (n : Nat) (mem : List Nat) :
    (write_loop mem addr value n).length = mem.length := by
  unfold write_loop
  induction n with
  | zero => rfl
  | succ n ih => rw [List.range_succ, List.foldl_append]; simpa using ih

/-- Bytes of memory after the store loop. -/
theorem write_loop_getD (addr value : Nat) (n : Nat) (mem : List Nat) (j : Nat)
    (hj : j < mem.length) :
    (write_loop mem addr value n).getD j 0
      = if addr ≤ j ∧ j < addr + n then (value >>> ((j - addr) * 8)) &&& 0xFF
        else mem.getD j 0 := by
  induction n with
  | zero => rw [if_neg (by omega)]; rfl
  | succ n ih =>
    have hlen := write_loop_length addr value n mem
    unfold write_loop at ih hlen ⊢
    rw [List.range_succ, List.foldl_append]
    simp only [List.foldl_cons, List.foldl_nil]
    rw [List.getD_eq_getElem?_getD, List.getElem?_set, hlen]
    by_cases hjn : addr + n = j
    · subst hjn
      simp [hj]
    · rw [if_neg hjn, ← List.getD_eq_getElem?_getD, ih]
      by_cases h1 : addr ≤ j ∧ j < addr + n
      · rw [if_pos h1, if_pos (by omega)]
      · rw [if_neg h1, if_neg (by omega)]

theorem write_mem_ok (c : RISCVCpu) (addr value size : Nat)
    (h : sizeT (addr + size) ≤ c.mem.length) :
    write_mem c addr value size
      = ⟨⟨c.reg, c.pc, write_loop c.mem addr value size, c.out⟩, .done⟩ := by
  unfold write_mem
  rw [if_neg (by omega)]

theorem write_mem_getD_written (c : RISCVCpu) (addr value size i : Nat)
    (h : sizeT (addr + size) ≤ c.mem.length) (hl : addr + size ≤ c.mem.length) (hi : i < size) :
    (write_mem c addr value size).cpu.mem.getD (addr + i) 0 = (value >>> (i * 8)) &&& 0xFF := by
  rw [write_mem_ok c addr value size h]
  show List.getD (write_loop c.mem addr value size) (addr + i) 0 = _
  rw [write_loop_getD addr value size c.mem (addr + i) (by omega), if_pos (by omega),
    Nat.add_sub_cancel_left]

theorem and_255 (n : Nat) : n &&& 0xFF = n % 256 := Nat.and_pow_two_sub_one_eq_mod n 8

theorem mask_eq_mod (value k : Nat) : value &&& ((1 <<< k) - 1) = value % 2 ^ k := by
  rw [Nat.shiftLeft_eq, Nat.one_mul, Nat.and_pow_two_sub_one_eq_mod]

/-- C1. Memory round trip: for a 32-bit `addr`, a width in {1, 2, 4} and any value, when
`addr + width` does not exceed the memory length, `write_mem` returns normally and `read_mem`
of the same range afterwards returns `value mod 2 ^ (8 * width)`, which is
`value & ((1 << (8 * width)) - 1)`. -/
theorem read_mem_write_mem (c : RISCVCpu) (addr width value : Nat) (haddr : addr < 2 ^ 32)
    (hwidth : width = 1 ∨ width = 2 ∨ width = 4) (hb : addr + width ≤ c.mem.length) :
    (write_mem c addr value width).outcome = .done ∧
    read_mem (write_mem c addr value width).cpu addr width = .ok (value % 2 ^ (8 * width)) ∧
    read_mem (write_mem c addr value width).cpu addr width
      = .ok (value &&& ((1 <<< (8 * width)) - 1)) := by
  have hs : sizeT (addr + width) ≤ c.mem.length := by
    rw [sizeT_of_lt _ (by omega)]; exact hb
  have hlen : (write_mem c addr value width).cpu.mem.length = c.mem.length := by
    rw [write_mem_ok c addr value width hs]; exact write_loop_length addr value width c.mem
  have hread := read_mem_ok (write_mem c addr value width).cpu addr width (by rw [hlen]; exact hs)
  have hbyte := fun i hi => write_mem_getD_written c addr value width i hs hb hi
  rw [mask_eq_mod]
  refine ⟨by rw [write_mem_ok c addr value width hs], ?_⟩
  suffices h : read_mem (write_mem c addr value width).cpu addr width
      = .ok (value % 2 ^ (8 * width)) from ⟨h, h⟩
  rw [hread]
  congr 1
  unfold read_loop
  rcases hwidth with h | h | h <;> subst h
  · rw [range_one]
    simp only [List.foldl_cons, List.foldl_nil]
    rw [hbyte 0 (by omega), or_bytes1 _ (by rw [and_255]; omega), and_255,
      Nat.shiftRight_eq_div_pow]
    omega
  · rw [range_two]
    simp only [List.foldl_cons, List.foldl_nil]
    rw [hbyte 0 (by omega), hbyte 1 (by omega),
      or_bytes2 _ _ (by rw [and_255]; omega) (by rw [and_255]; omega), and_255, and_255,
      Nat.shiftRight_eq_div_pow, Nat.shiftRight_eq_div_pow]
    omega
  · rw [range_four]
    simp only [List.foldl_cons, List.foldl_nil]
    rw [hbyte 0 (by omega), hbyte 1 (by omega), hbyte 2 (by omega), hbyte 3 (by omega),
      or_bytes4 _ _ _ _ (by rw [and_255]; omega) (by rw [and_255]; omega)
        (by rw [and_255]; omega) (by rw [and_255]; omega),
      and_255, and_255, and_255, and_255, Nat.shiftRight_eq_div_pow, Nat.shiftRight_eq_div_pow,
      Nat.shiftRight_eq_div_pow, Nat.shiftRight_eq_div_pow]
    omega

/-- C2. Little-endian read: for a memory of bytes, a 32-bit `addr` and a width in {1, 2, 4}
with `addr + width` not exceeding the memory length, `read_mem` returns the sum over
`i < width` of `mem[addr + i] * 256 ^ i`; the byte at `addr` is the least-significant byte of
the result and the result is below `2 ^ (8 * width)`. -/
theorem read_mem_little_endian (c : RISCVCpu) (addr width : Nat) (haddr : addr < 2 ^ 32)
    (hwidth : width = 1 ∨ width = 2 ∨ width = 4) (hb : addr + width ≤ c.mem.length)
    (hbytes : ∀ b ∈ c.mem, b < 256) :
    read_mem c addr width
      = .ok (∑ i in Finset.range width, c.mem.getD (addr + i) 0 * 256 ^ i) ∧
    (∑ i in Finset.range width, c.mem.getD (addr + i) 0 * 256 ^ i) % 256 = c.mem.getD addr 0 ∧
    (∑ i in Finset.range width, c.mem.getD (addr + i) 0 * 256 ^ i) < 2 ^ (8 * width) := by
  have hs : sizeT (addr + width) ≤ c.mem.length := by
    rw [sizeT_of_lt _ (by omega)]; exact hb
  have hlt := getD_lt_of_forall c.mem hbytes
  rw [read_mem_ok c addr width hs]
  unfold read_loop
  rcases hwidth with h | h | h <;> subst h
  · rw [range_one]
    simp only [List.foldl_cons, List.foldl_nil, Finset.sum_range_succ, Finset.sum_range_zero]
    rw [or_bytes1 _ (hlt _)]
    have := hlt (addr + 0)
    simp only [Nat.add_zero] at this ⊢
    refine ⟨by congr 1; omega, by omega, by omega⟩
  · rw [range_two]
    simp only [List.foldl_cons, List.foldl_nil, Finset.sum_range_succ, Finset.sum_range_zero]
    rw [or_bytes2 _ _ (hlt _) (hlt _)]
    have h0 := hlt (addr + 0)
    have h1 := hlt (addr + 1)
    simp only [Nat.add_zero] at h0 ⊢
    refine ⟨by congr 1; omega, by omega, by omega⟩
  · rw [range_four]
    simp only [List.foldl_cons, List.foldl_nil, Finset.sum_range_succ, Finset.sum_range_zero]
    rw [or_bytes4 _ _ _ _ (hlt _) (hlt _) (hlt _) (hlt _)]
    have h0 := hlt (addr + 0)
    have h1 := hlt (addr + 1)
    have h2 := hlt (addr + 2)
    have h3 := hlt (addr + 3)
    simp only [Nat.add_zero] at h0 ⊢
    refine ⟨by congr 1; omega, by omega, by omega⟩

/-- C3. Bounds check: for a 32-bit `addr` and a width in {1, 2, 4}, `read_mem` and `write_mem`
fail, and then with the out-of-bounds condition, exactly when `addr + width`, computed without
wraparound, exceeds the memory length; a failing `write_mem` leaves the memory unchanged. -/
theorem bounds_check (c : RISCVCpu) (addr width value : Nat) (haddr : addr < 2 ^ 32)
    (hwidth : width = 1 ∨ width = 2 ∨ width = 4) :
    (read_mem c addr width = .error .out_of_range ↔ c.mem.length < addr + width) ∧
    ((∃ f, read_mem c addr width = .error f) ↔ c.mem.length < addr + width) ∧
    ((write_mem c addr value width).outcome = .fatal .out_of_range
      ↔ c.mem.length < addr + width) ∧
    ((write_mem c addr value width).outcome ≠ .done ↔ c.mem.length < addr + width) ∧
    ((write_mem c addr value width).outcome ≠ .done →
      (write_mem c addr value width).cpu.mem = c.mem) := by
  have hs : sizeT (addr + width) = addr + width := sizeT_of_lt _ (by omega)
  unfold read_mem write_mem
  rw [hs]
  by_cases h : addr + width > c.mem.length
  · simp [h]
  · simp [h]

theorem read_mem_write_mem_witness :
    (1 : Nat) < 2 ^ 32 ∧ 1 + 2 ≤ [1, 2, 3, 4, 5].length ∧
    read_mem (write_mem ⟨[], 0, [1, 2, 3, 4, 5], []⟩ 1 0xAABBCCDD 2).cpu 1 2 = .ok 0xCCDD :=
  ⟨by decide, by decide,
    (read_mem_write_mem ⟨[], 0, [1, 2, 3, 4, 5], []⟩ 1 2 0xAABBCCDD (by decide)
      (Or.inr (Or.inl rfl)) (by decide)).2.1⟩

theorem read_mem_little_endian_witness :
    read_mem ⟨[], 0, [1, 2, 3, 4, 5], []⟩ 1 4 = .ok 0x05040302 :=
  (read_mem_little_endian ⟨[], 0, [1, 2, 3, 4, 5], []⟩ 1 4 (by decide)
    (Or.inr (Or.inr rfl)) (by decide) (by decide)).1

theorem bounds_check_witness :
    read_mem ⟨[], 0, [1, 2, 3, 4, 5], []⟩ 2 4 = .error .out_of_range ∧
    (write_mem ⟨[], 0, [1, 2, 3, 4, 5], []⟩ 2 7 4).cpu.mem = [1, 2, 3, 4, 5] :=
  have h := bounds_check ⟨[], 0, [1, 2, 3, 4, 5], []⟩ 2 4 7 (by decide) (Or.inr (Or.inr rfl))
  ⟨h.1.2 (by decide), h.2.2.2.2 (h.2.2.2.1.2 (by decide))⟩


/-! ## Decoder: lemmas and theorems -/

theorem bits_eq (w hi lo : Nat) : bits w hi lo = w / 2 ^ lo % 2 ^ (hi + 1 - lo) := by
  unfold bits; rw [Nat.shiftRight_eq_div_pow]

/-- C7. I-type immediate: for a 32-bit word whose opcode is 0x03, 0x13, 0x67 or 0x73, `decode`
yields `bits[31:20]` sign-extended from bit 11: `bits[31:20]` itself when bit 31 is clear, and
`bits[31:20] - 4096`, a number in `[-2048, -1]`, when bit 31 is set. -/
theorem decode_itype (instr : Nat) (hw : instr < 2 ^ 32)
    (hop : instr &&& 0x7F = 0x03 ∨ instr &&& 0x7F = 0x13 ∨ instr &&& 0x7F = 0x67 ∨
      instr &&& 0x7F = 0x73) :
    (decode instr).imm = signExtend 11 (bits instr 31 20) ∧
    (bits instr 31 31 = 0 → (decode instr).imm = bits instr 31 20) ∧
    (bits instr 31 31 = 1 → (decode instr).imm = (bits instr 31 20 : Int) - 4096 ∧
      -2048 ≤ (decode instr).imm ∧ (decode instr).imm ≤ -1) := by
  have himm : (decode instr).imm = toS32 instr >>> (20 : Nat) := by
    show decode_imm instr (instr &&& 0x7F) = _
    unfold decode_imm
    rw [if_pos hop]
  rw [himm, Int.shiftRight_eq_div_pow]
  unfold toS32 signExtend
  simp only [bits_eq]
  norm_num
  split_ifs <;> omega

theorem toS32_of_lt (n : Nat) (h : n < 2 ^ 31) : toS32 n = (n : Int) := by
  unfold toS32
  rw [Nat.mod_eq_of_lt (by omega), if_pos h]

theorem toU32_natCast (n : Nat) (h : n < 2 ^ 32) : toU32 (n : Int) = n := by
  unfold toU32
  omega

theorem sext_shift_20 (v : Nat) :
    toS32 ((v <<< 20) % 2 ^ 32) >>> (20 : Nat) = signExtend 11 v := by
  rw [Int.shiftRight_eq_div_pow, Nat.shiftLeft_eq]
  unfold toS32 signExtend
  norm_num
  split_ifs <;> omega

theorem sext_shift_19 (v : Nat) :
    toS32 ((v <<< 19) % 2 ^ 32) >>> (19 : Nat) = signExtend 12 v := by
  rw [Int.shiftRight_eq_div_pow, Nat.shiftLeft_eq]
  unfold toS32 signExtend
  norm_num
  split_ifs <;> omega

theorem sext_shift_11 (v : Nat) :
    toS32 ((v <<< 11) % 2 ^ 32) >>> (11 : Nat) = signExtend 20 v := by
  rw [Int.shiftRight_eq_div_pow, Nat.shiftLeft_eq]
  unfold toS32 signExtend
  norm_num
  split_ifs <;> omega

/-- C8. S-type immediate: for a 32-bit word whose opcode is 0x23, `decode` yields the 12-bit
value `(bits[31:25] << 5) | bits[11:7]` sign-extended from bit 11; it lies in `[-2048, 2047]`
and is negative exactly when bit 31 of the word is set. -/
theorem decode_stype (instr : Nat) (hw : instr < 2 ^ 32) (hop : instr &&& 0x7F = 0x23) :
    (decode instr).imm = signExtend 11 ((bits instr 31 25 <<< 5) ||| bits instr 11 7) ∧
    -2048 ≤ (decode instr).imm ∧ (decode instr).imm ≤ 2047 ∧
    ((decode instr).imm < 0 ↔ bits instr 31 31 = 1) := by
  have hlo : (instr >>> 7) &&& 0x1F = instr / 2 ^ 7 % 2 ^ 5 := by
    rw [Nat.shiftRight_eq_div_pow]; exact Nat.and_pow_two_sub_one_eq_mod _ 5
  have hhi : ((instr >>> 25) <<< 5) % 2 ^ 32 = (instr / 2 ^ 25) <<< 5 := by
    rw [Nat.shiftRight_eq_div_pow, Nat.shiftLeft_eq]; omega
  have hspec : (bits instr 31 25 <<< 5) ||| bits instr 11 7
      = instr / 2 ^ 7 % 2 ^ 5 + instr / 2 ^ 25 * 2 ^ 5 := by
    rw [Nat.lor_comm, bits_eq, bits_eq, or_shift_eq_add _ _ 5 (by omega)]
    omega
  have hv : instr / 2 ^ 7 % 2 ^ 5 + instr / 2 ^ 25 * 2 ^ 5 < 2 ^ 12 := by omega
  have himm : (decode instr).imm
      = signExtend 11 (instr / 2 ^ 7 % 2 ^ 5 + instr / 2 ^ 25 * 2 ^ 5) := by
    show decode_imm instr (instr &&& 0x7F) = _
    unfold decode_imm
    rw [hop, if_neg (by decide), if_pos rfl]
    simp only []
    rw [hlo, hhi, or_shift_eq_add _ _ 5 (by omega),
      toS32_of_lt (instr / 2 ^ 7 % 2 ^ 5 + instr / 2 ^ 25 * 2 ^ 5) (by omega),
      toU32_natCast _ (by omega), sext_shift_20]
  rw [himm, hspec, bits_eq]
  unfold signExtend
  norm_num
  split_ifs <;> omega

theorem decode_itype_witness :
    (decode 0xFFF00093).imm = (bits 0xFFF00093 31 20 : Int) - 4096 ∧
    (decode 0xFFF00093).imm = -1 :=
  have h := decode_itype 0xFFF00093 (by decide) (Or.inr (Or.inl (by decide)))
  ⟨(h.2.2 (by decide)).1, by decide⟩

theorem decode_stype_witness :
    ((decode 0xFE112E23).imm < 0 ↔ bits 0xFE112E23 31 31 = 1) ∧ (decode 0xFE112E23).imm = -4 :=
  ⟨(decode_stype 0xFE112E23 (by decide) (by decide)).2.2.2, by decide⟩

/-- What the B-type case of `decode` computes: bit 31 of the word lands on bit 11 of the
assembled value, next to bit 7, and bit 12 stays clear, so that the sign extension from bit 12
has nothing to extend and the immediate is never negative. -/
theorem decode_btype_nonneg (instr : Nat) (hw : instr < 2 ^ 32) (hop : instr &&& 0x7F = 0x63) :
    0 ≤ (decode instr).imm ∧ (decode instr).imm < 4096 := by
  have h1 : (instr >>> 7) &&& 0x1E < 2 ^ 12 :=
    Nat.lt_of_le_of_lt Nat.and_le_right (by decide)
  have h2 : (instr >>> 20) &&& 0x7E0 < 2 ^ 12 :=
    Nat.lt_of_le_of_lt Nat.and_le_right (by decide)
  have h3 : ((instr <<< 4) % 2 ^ 32) &&& 0x800 < 2 ^ 12 :=
    Nat.lt_of_le_of_lt Nat.and_le_right (by decide)
  have h4 : ((instr >>> 31) <<< 11) % 2 ^ 32 < 2 ^ 12 := by
    rw [Nat.shiftRight_eq_div_pow, Nat.shiftLeft_eq]; omega
  have hv := Nat.or_lt_two_pow (Nat.or_lt_two_pow (Nat.or_lt_two_pow h1 h2) h3) h4
  have himm : (decode instr).imm
      = signExtend 12 ((instr >>> 7) &&& 0x1E ||| (instr >>> 20) &&& 0x7E0 |||
          ((instr <<< 4) % 2 ^ 32) &&& 0x800 ||| ((instr >>> 31) <<< 11) % 2 ^ 32) := by
    show decode_imm instr (instr &&& 0x7F) = _
    unfold decode_imm
    rw [hop, if_neg (by decide), if_neg (by decide), if_pos rfl]
    simp only []
    rw [toS32_of_lt ((instr >>> 7) &&& 0x1E ||| (instr >>> 20) &&& 0x7E0 |||
          ((instr <<< 4) % 2 ^ 32) &&& 0x800 ||| ((instr >>> 31) <<< 11) % 2 ^ 32) (by omega),
      toU32_natCast _ (by omega), sext_shift_19]
  have key : ∀ v : Nat, v < 2 ^ 12 → 0 ≤ signExtend 12 v ∧ signExtend 12 v < 4096 := by
    intro v h
    unfold signExtend
    norm_num
    split_ifs <;> omega
  rw [himm]
  exact key _ hv

theorem and_eq_zero_of_masks (x m k : Nat) (h : m &&& (2 ^ k - 1) = 0) :
    (x &&& m) % 2 ^ k = 0 := by
  rw [← Nat.and_pow_two_sub_one_eq_mod, Nat.and_assoc, h, Nat.and_zero]

/-- What the J-type case of `decode` computes: a value assembled from `bits[30:21]` at bit 0
and bit 20 at bit 10 only, so that the immediate always lies in `[0, 2047]`. -/
theorem decode_jtype_range (instr : Nat) (hw : instr < 2 ^ 32) (hop : instr &&& 0x7F = 0x6F) :
    0 ≤ (decode instr).imm ∧ (decode instr).imm ≤ 2047 := by
  have ha : (instr >>> 21) &&& 0x3FF < 2 ^ 11 :=
    Nat.lt_of_le_of_lt Nat.and_le_right (by decide)
  have hb : (instr >>> 10) &&& 0x400 < 2 ^ 11 :=
    Nat.lt_of_le_of_lt Nat.and_le_right (by decide)
  have hab := Nat.or_lt_two_pow ha hb
  have hc : (instr &&& 0x7F800000) % 2 ^ 23 = 0 := and_eq_zero_of_masks _ _ 23 (by decide)
  have hc2 : instr &&& 0x7F800000 ≤ 0x7F800000 := Nat.and_le_right
  have hd : (instr >>> 11) &&& 0x80000000 = 0 := by
    have h1 : ((instr >>> 11) &&& 0x80000000) % 2 ^ 31 = 0 :=
      and_eq_zero_of_masks _ _ 31 (by decide)
    have h2 : (instr >>> 11) &&& 0x80000000 ≤ instr >>> 11 := Nat.and_le_left
    have h3 : instr >>> 11 < 2 ^ 21 := by rw [Nat.shiftRight_eq_div_pow]; omega
    omega
  have hv : ((instr >>> 21) &&& 0x3FF ||| (instr >>> 10) &&& 0x400 |||
      instr &&& 0x7F800000 ||| (instr >>> 11) &&& 0x80000000)
      = 2 ^ 23 * ((instr &&& 0x7F800000) / 2 ^ 23)
        + ((instr >>> 21) &&& 0x3FF ||| (instr >>> 10) &&& 0x400) := by
    rw [hd, Nat.or_zero, Nat.lor_comm, Nat.mul_add_lt_is_or (by omega)]
    congr 1
    omega
  have himm : (decode instr).imm
      = signExtend 20 (2 ^ 23 * ((instr &&& 0x7F800000) / 2 ^ 23)
        + ((instr >>> 21) &&& 0x3FF ||| (instr >>> 10) &&& 0x400)) := by
    show decode_imm instr (instr &&& 0x7F) = _
    unfold decode_imm
    rw [hop, if_neg (by decide), if_neg (by decide), if_neg (by decide), if_neg (by decide),
      if_pos rfl]
    simp only []
    rw [hv, toS32_of_lt (2 ^ 23 * ((instr &&& 0x7F800000) / 2 ^ 23)
        + ((instr >>> 21) &&& 0x3FF ||| (instr >>> 10) &&& 0x400)) (by omega),
      toU32_natCast _ (by omega), sext_shift_11]
  have key : ∀ q x : Nat, x < 2 ^ 11 →
      0 ≤ signExtend 20 (2 ^ 23 * q + x) ∧ signExtend 20 (2 ^ 23 * q + x) ≤ 2047 := by
    intro q x h
    unfold signExtend
    norm_num
    split_ifs <;> omega
  rw [himm]
  exact key _ _ hab

/-- C5 (code defect). B-type immediate at the word `0xFE000EE3`, which encodes
`beq x0, x0, -4`: the opcode is 0x63 and bit 31 is set, the 13-bit value
`bit[31]<<12 | bit[7]<<11 | bits[30:25]<<5 | bits[11:8]<<1` sign-extended from bit 12 is `-4`,
and `decode` yields `4092`, because it shifts bit 31 to bit 11 and not to bit 12. -/
theorem decode_btype_backward_branch :
    (decode 0xFE000EE3).opcode = 0x63 ∧ bits 0xFE000EE3 31 31 = 1 ∧
    signExtend 12 ((bits 0xFE000EE3 31 31 <<< 12) ||| (bits 0xFE000EE3 7 7 <<< 11) |||
      (bits 0xFE000EE3 30 25 <<< 5) ||| (bits 0xFE000EE3 11 8 <<< 1)) = -4 ∧
    (decode 0xFE000EE3).imm = 4092 := by
  decide

/-- C6 (code defect). J-type immediate at the word `0xFFDFF06F`, which encodes `jal x0, -4`:
the opcode is 0x6F, the 21-bit value
`bit[31]<<20 | bits[19:12]<<12 | bit[20]<<11 | bits[30:21]<<1` sign-extended from bit 20 is
`-4`, and `decode` yields `2046`, because its shifts and masks place `bits[30:21]` at bit 0,
bit 20 at bit 10, and drop bit 31 and `bits[19:12]`. -/
theorem decode_jtype_backward_jump :
    (decode 0xFFDFF06F).opcode = 0x6F ∧
    signExtend 20 ((bits 0xFFDFF06F 31 31 <<< 20) ||| (bits 0xFFDFF06F 19 12 <<< 12) |||
      (bits 0xFFDFF06F 20 20 <<< 11) ||| (bits 0xFFDFF06F 30 21 <<< 1)) = -4 ∧
    (decode 0xFFDFF06F).imm = 2046 := by
  decide


/-! ## Executor: lemmas -/

theorem write_rd_frame (c : RISCVCpu) (rd result : Nat) :
    (write_rd c rd result).reg.length = c.reg.length ∧ (write_rd c rd result).mem = c.mem ∧
    (write_rd c rd result).pc = c.pc ∧ (write_rd c rd result).out = c.out := by
  unfold write_rd
  split_ifs <;> simp

theorem finish_done (c : RISCVCpu) (next_pc : Nat) :
    (finish c next_pc).outcome = .done ∧ (finish c next_pc).cpu.reg = c.reg.set 0 0 ∧
    (finish c next_pc).cpu.mem = c.mem ∧ (finish c next_pc).cpu.pc = next_pc ∧
    (finish c next_pc).cpu.out = c.out :=
  ⟨rfl, rfl, rfl, rfl, rfl⟩

theorem getElem?_set_zero (reg : List Nat) (h : 0 < reg.length) :
    (reg.set 0 0)[0]? = some 0 := by
  cases reg with
  | nil => simp at h
  | cons a l => simp

/-- A failing `write_mem` changes nothing; a returning one changes memory only. -/
theorem write_mem_frame (c : RISCVCpu) (addr value size : Nat) :
    ((write_mem c addr value size).outcome ≠ .done → write_mem c addr value size
      = ⟨c, .fatal .out_of_range⟩) ∧
    (write_mem c addr value size).cpu.reg = c.reg ∧
    (write_mem c addr value size).cpu.pc = c.pc ∧
    (write_mem c addr value size).cpu.out = c.out := by
  unfold write_mem
  split_ifs <;> simp

theorem store_frame (c : RISCVCpu) (funct3 rs1_val rs2_val : Nat) (imm : Int) :
    ((store c funct3 rs1_val rs2_val imm).outcome ≠ .done →
      store c funct3 rs1_val rs2_val imm = ⟨c, .fatal .out_of_range⟩) ∧
    (store c funct3 rs1_val rs2_val imm).cpu.reg = c.reg ∧
    (store c funct3 rs1_val rs2_val imm).cpu.pc = c.pc ∧
    (store c funct3 rs1_val rs2_val imm).cpu.out = c.out := by
  unfold store
  simp only []
  split_ifs
  · exact write_mem_frame _ _ _ _
  · exact write_mem_frame _ _ _ _
  · exact write_mem_frame _ _ _ _
  · simp

/-- The loop of the write system call changes the output only, by appending to it, and it
ends normally or out of bounds. -/
theorem ecall_write_frame (n : Nat) : ∀ (i : Nat) (c : RISCVCpu),
    (ecall_write n i c).cpu.reg = c.reg ∧ (ecall_write n i c).cpu.mem = c.mem ∧
    (ecall_write n i c).cpu.pc = c.pc ∧ (∃ s, (ecall_write n i c).cpu.out = c.out ++ s) ∧
    ((ecall_write n i c).outcome = .done ∨
      (ecall_write n i c).outcome = .fatal .out_of_range) := by
  induction n with
  | zero => intro i c; exact ⟨rfl, rfl, rfl, ⟨[], by simp [ecall_write]⟩, Or.inl rfl⟩
  | succ n ih =>
    intro i c
    unfold ecall_write
    rcases h : read_mem c ((c.reg.getD 11 0 + i) % 2 ^ 32) 1 with f | b
    · refine ⟨rfl, rfl, rfl, ⟨[], by simp⟩, Or.inr ?_⟩
      unfold read_mem at h
      split_ifs at h
      cases h
      rfl
    · obtain ⟨h1, h2, h3, ⟨s, h4⟩, h5⟩ := ih (i + 1) { c with out := c.out ++ [b % 256] }
      refine ⟨h1, h2, h3, ⟨[b % 256] ++ s, ?_⟩, h5⟩
      simp only [h4, List.append_assoc]

theorem handle_ecall_frame (c : RISCVCpu) :
    (handle_ecall c).cpu.reg = c.reg ∧ (handle_ecall c).cpu.mem = c.mem ∧
    (handle_ecall c).cpu.pc = c.pc ∧ (∃ s, (handle_ecall c).cpu.out = c.out ++ s) := by
  unfold handle_ecall
  split_ifs
  · exact ⟨rfl, rfl, rfl, ⟨[], by simp⟩⟩
  · obtain ⟨h1, h2, h3, h4, _⟩ := ecall_write_frame (c.reg.getD 12 0) 0 c
    exact ⟨h1, h2, h3, h4⟩
  · exact ⟨rfl, rfl, rfl, ⟨[], by simp⟩⟩

theorem system_frame (c : RISCVCpu) (funct3 : Nat) (imm : Int) :
    (system c funct3 imm).cpu.reg = c.reg ∧ (system c funct3 imm).cpu.mem = c.mem ∧
    (system c funct3 imm).cpu.pc = c.pc ∧ (∃ s, (system c funct3 imm).cpu.out = c.out ++ s) := by
  unfold system
  split_ifs
  · exact handle_ecall_frame c
  · exact ⟨rfl, rfl, rfl, ⟨[], by simp⟩⟩
  · exact ⟨rfl, rfl, rfl, ⟨[], by simp⟩⟩
  · exact ⟨rfl, rfl, rfl, ⟨[], by simp⟩⟩

/-! ### `execute`, opcode by opcode -/

theorem execute_op_imm (c : RISCVCpu) (ins : Instruction) (h : ins.opcode = 0x13) :
    execute c ins = finish (write_rd c ins.rd
      (op_imm ins.funct3 (c.reg.getD ins.rs1 0) ins.imm)) ((c.pc + 4) % 2 ^ 32) := by
  unfold execute
  simp only [h, ↓reduceIte]

theorem execute_op (c : RISCVCpu) (ins : Instruction) (h : ins.opcode = 0x33) :
    execute c ins = finish (write_rd c ins.rd
      (op ins.funct3 ins.funct7 (c.reg.getD ins.rs1 0) (c.reg.getD ins.rs2 0)))
      ((c.pc + 4) % 2 ^ 32) := by
  unfold execute
  simp only [h, ↓reduceIte, Nat.reduceEqDiff]

theorem execute_load (c : RISCVCpu) (ins : Instruction) (h : ins.opcode = 0x03) :
    execute c ins = match load c ins.funct3 (c.reg.getD ins.rs1 0) ins.imm with
      | .error f => ⟨c, .fatal f⟩
      | .ok result => finish (write_rd c ins.rd result) ((c.pc + 4) % 2 ^ 32) := by
  unfold execute
  simp only [h, ↓reduceIte, Nat.reduceEqDiff]

theorem execute_store (c : RISCVCpu) (ins : Instruction) (h : ins.opcode = 0x23) :
    execute c ins
      = then_finish (store c ins.funct3 (c.reg.getD ins.rs1 0) (c.reg.getD ins.rs2 0) ins.imm)
          ((c.pc + 4) % 2 ^ 32) := by
  unfold execute
  simp only [h, ↓reduceIte, Nat.reduceEqDiff]

theorem execute_branch (c : RISCVCpu) (ins : Instruction) (h : ins.opcode = 0x63) :
    execute c ins = finish c
      (if branch ins.funct3 (c.reg.getD ins.rs1 0) (c.reg.getD ins.rs2 0)
        then (c.pc + toU32 ins.imm) % 2 ^ 32 else (c.pc + 4) % 2 ^ 32) := by
  unfold execute
  simp only [h, ↓reduceIte, Nat.reduceEqDiff]

theorem execute_jal (c : RISCVCpu) (ins : Instruction) (h : ins.opcode = 0x6F) :
    execute c ins = finish (write_rd c ins.rd ((c.pc + 4) % 2 ^ 32))
      ((c.pc + toU32 ins.imm) % 2 ^ 32) := by
  unfold execute
  simp only [h, ↓reduceIte, Nat.reduceEqDiff]

theorem execute_jalr (c : RISCVCpu) (ins : Instruction) (h : ins.opcode = 0x67) :
    execute c ins = finish (write_rd c ins.rd ((c.pc + 4) % 2 ^ 32))
      (((c.reg.getD ins.rs1 0 + toU32 ins.imm) % 2 ^ 32) &&& 0xFFFFFFFE) := by
  unfold execute
  simp only [h, ↓reduceIte, Nat.reduceEqDiff]

theorem execute_lui (c : RISCVCpu) (ins : Instruction) (h : ins.opcode = 0x37) :
    execute c ins = finish (write_rd c ins.rd (toU32 ins.imm)) ((c.pc + 4) % 2 ^ 32) := by
  unfold execute
  simp only [h, ↓reduceIte, Nat.reduceEqDiff]

theorem execute_auipc (c : RISCVCpu) (ins : Instruction) (h : ins.opcode = 0x17) :
    execute c ins = finish (write_rd c ins.rd ((c.pc + toU32 ins.imm) % 2 ^ 32))
      ((c.pc + 4) % 2 ^ 32) := by
  unfold execute
  simp only [h, ↓reduceIte, Nat.reduceEqDiff]

theorem execute_system (c : RISCVCpu) (ins : Instruction) (h : ins.opcode = 0x73) :
    execute c ins = then_finish (system c ins.funct3 ins.imm) ((c.pc + 4) % 2 ^ 32) := by
  unfold execute
  simp only [h, ↓reduceIte, Nat.reduceEqDiff]

theorem execute_default (c : RISCVCpu) (ins : Instruction)
    (h : ins.opcode ≠ 0x13 ∧ ins.opcode ≠ 0x33 ∧ ins.opcode ≠ 0x03 ∧ ins.opcode ≠ 0x23 ∧
      ins.opcode ≠ 0x63 ∧ ins.opcode ≠ 0x6F ∧ ins.opcode ≠ 0x67 ∧ ins.opcode ≠ 0x37 ∧
      ins.opcode ≠ 0x17 ∧ ins.opcode ≠ 0x73) :
    execute c ins = ⟨c, .fatal .unsupported_instruction⟩ := by
  obtain ⟨h1, h2, h3, h4, h5, h6, h7, h8, h9, h10⟩ := h
  unfold execute
  simp only [h1, h2, h3, h4, h5, h6, h7, h8, h9, h10, ↓reduceIte]

/-! ### The frame of `execute` -/

theorem then_finish_done (e : Effect) (next_pc : Nat) (h : e.outcome = .done) :
    then_finish e next_pc = finish e.cpu next_pc := by
  unfold then_finish
  rw [h]

theorem then_finish_stopped (e : Effect) (next_pc : Nat) (h : e.outcome ≠ .done) :
    then_finish e next_pc = e := by
  unfold then_finish
  split
  · rename_i h1; exact absurd h1 h
  · rfl

theorem then_finish_fatal (e : Effect) (next_pc : Nat) (f : Fatal)
    (h : (then_finish e next_pc).outcome = .fatal f) :
    then_finish e next_pc = e ∧ e.outcome = .fatal f := by
  by_cases hd : e.outcome = .done
  · rw [then_finish_done e next_pc hd] at h; cases h
  · rw [then_finish_stopped e next_pc hd] at h ⊢; exact ⟨rfl, h⟩

theorem framed_finish (c c1 : RISCVCpu) (next_pc : Nat) (hlen : c1.reg.length = c.reg.length) :
    Framed c (finish c1 next_pc) := by
  refine ⟨by simp [finish, hlen], fun _ hpos => ?_, fun h => absurd rfl h⟩
  exact getElem?_set_zero c1.reg (by omega)

theorem framed_stopped (c c1 : RISCVCpu) (o : Outcome) (ho : o ≠ .done) (h1 : c1.reg = c.reg)
    (h2 : c1.mem = c.mem) (h3 : c1.pc = c.pc) (h4 : ∃ s, c1.out = c.out ++ s) :
    Framed c ⟨c1, o⟩ :=
  ⟨by rw [h1], fun h => absurd h ho, fun _ => ⟨h1, h2, h3, h4⟩⟩

/-- What every `execute` guarantees. -/
theorem execute_framed (c : RISCVCpu) (ins : Instruction) : Framed c (execute c ins) := by
  by_cases h1 : ins.opcode = 0x13
  · rw [execute_op_imm c ins h1]; exact framed_finish _ _ _ (write_rd_frame _ _ _).1
  by_cases h2 : ins.opcode = 0x33
  · rw [execute_op c ins h2]; exact framed_finish _ _ _ (write_rd_frame _ _ _).1
  by_cases h3 : ins.opcode = 0x03
  · rw [execute_load c ins h3]
    split
    · exact framed_stopped c c _ (by simp) rfl rfl rfl ⟨[], by simp⟩
    · exact framed_finish _ _ _ (write_rd_frame _ _ _).1
  by_cases h4 : ins.opcode = 0x23
  · rw [execute_store c ins h4]
    have hs := store_frame c ins.funct3 (c.reg.getD ins.rs1 0) (c.reg.getD ins.rs2 0) ins.imm
    by_cases hd : (store c ins.funct3 (c.reg.getD ins.rs1 0) (c.reg.getD ins.rs2 0)
        ins.imm).outcome = .done
    · rw [then_finish_done _ _ hd]; exact framed_finish _ _ _ (by rw [hs.2.1])
    · rw [then_finish_stopped _ _ hd, hs.1 hd]
      exact framed_stopped c c _ (by simp) rfl rfl rfl ⟨[], by simp⟩
  by_cases h5 : ins.opcode = 0x63
  · rw [execute_branch c ins h5]; exact framed_finish _ _ _ rfl
  by_cases h6 : ins.opcode = 0x6F
  · rw [execute_jal c ins h6]; exact framed_finish _ _ _ (write_rd_frame _ _ _).1
  by_cases h7 : ins.opcode = 0x67
  · rw [execute_jalr c ins h7]; exact framed_finish _ _ _ (write_rd_frame _ _ _).1
  by_cases h8 : ins.opcode = 0x37
  · rw [execute_lui c ins h8]; exact framed_finish _ _ _ (write_rd_frame _ _ _).1
  by_cases h9 : ins.opcode = 0x17
  · rw [execute_auipc c ins h9]; exact framed_finish _ _ _ (write_rd_frame _ _ _).1
  by_cases h10 : ins.opcode = 0x73
  · rw [execute_system c ins h10]
    have hs := system_frame c ins.funct3 ins.imm
    by_cases hd : (system c ins.funct3 ins.imm).outcome = .done
    · rw [then_finish_done _ _ hd]; exact framed_finish _ _ _ (by rw [hs.1])
    · rw [then_finish_stopped _ _ hd]
      exact ⟨by rw [hs.1], fun h => absurd h hd, fun _ => hs⟩
  · rw [execute_default c ins ⟨h1, h2, h3, h4, h5, h6, h7, h8, h9, h10⟩]
    exact framed_stopped c c _ (by simp) rfl rfl rfl ⟨[], by simp⟩

theorem read_loop_one (mem : List Nat) (addr : Nat) :
    read_loop mem addr 1 = mem.getD addr 0 % 2 ^ 32 := by
  unfold read_loop
  rw [range_one]
  simp

theorem read_mem_one (c : RISCVCpu) (addr : Nat) (h : addr < 2 ^ 32) :
    read_mem c addr 1 = if c.mem.length ≤ addr then .error .out_of_range
      else .ok (c.mem.getD addr 0 % 2 ^ 32) := by
  unfold read_mem
  rw [sizeT_of_lt _ (by omega), read_loop_one]
  by_cases hl : c.mem.length ≤ addr
  · rw [if_pos (by omega), if_pos hl]
  · rw [if_neg (by omega), if_neg hl]

theorem emitted_succ (c : RISCVCpu) (i k : Nat) :
    emitted c i (k + 1)
      = (c.mem.getD ((c.reg.getD 11 0 + i) % 2 ^ 32) 0 % 256) :: emitted c (i + 1) k := by
  unfold emitted
  rw [List.range_succ_eq_map, List.map_cons, List.map_map]
  congr 1
  apply List.map_congr_left
  intro j _
  simp only [Function.comp, Nat.succ_eq_add_one]
  congr 3
  omega

/-- The output of the loop of the write system call: all `n` bytes when it completes; when it
does not, the bytes in front of the first address out of bounds, `k` of them, every address
before the `k`-th in bounds. -/
theorem ecall_write_out (n : Nat) : ∀ (i : Nat) (c : RISCVCpu),
    ((ecall_write n i c).outcome = .done →
      (ecall_write n i c).cpu.out = c.out ++ emitted c i n) ∧
    ((ecall_write n i c).outcome ≠ .done →
      ∃ k, k < n ∧ (ecall_write n i c).cpu.out = c.out ++ emitted c i k ∧
        c.mem.length ≤ (c.reg.getD 11 0 + (i + k)) % 2 ^ 32 ∧
        ∀ j, j < k → (c.reg.getD 11 0 + (i + j)) % 2 ^ 32 < c.mem.length) := by
  induction n with
  | zero =>
    intro i c
    exact ⟨fun _ => by simp [ecall_write, emitted], fun h => absurd rfl h⟩
  | succ n ih =>
    intro i c
    unfold ecall_write
    rw [read_mem_one c _ (Nat.mod_lt _ (by decide))]
    by_cases hl : c.mem.length ≤ (c.reg.getD 11 0 + i) % 2 ^ 32
    · rw [if_pos hl]
      exact ⟨fun h => (by cases h), fun _ => ⟨0, by omega, by simp [emitted],
        by simpa using hl, fun j hj => absurd hj (Nat.not_lt_zero j)⟩⟩
    · rw [if_neg hl]
      simp only []
      obtain ⟨h1, h2⟩ := ih (i + 1)
        { c with out := c.out ++ [c.mem.getD ((c.reg.getD 11 0 + i) % 2 ^ 32) 0 % 2 ^ 32 % 256] }
      have hb : c.mem.getD ((c.reg.getD 11 0 + i) % 2 ^ 32) 0 % 2 ^ 32 % 256
          = c.mem.getD ((c.reg.getD 11 0 + i) % 2 ^ 32) 0 % 256 := by omega
      constructor
      · intro hd
        rw [h1 hd, emitted_succ, hb]
        simp [emitted]
      · intro hd
        obtain ⟨k, hk, hout, hlen, hin⟩ := h2 hd
        refine ⟨k + 1, by omega, ?_, ?_, ?_⟩
        · rw [hout, emitted_succ, hb]
          simp [emitted]
        · have e : i + (k + 1) = i + 1 + k := by omega
          rw [e]
          exact hlen
        · intro j hj
          cases j with
          | zero => simpa using hl
          | succ m =>
            have e : i + (m + 1) = i + 1 + m := by omega
            rw [e]
            exact hin m (by omega)

theorem system_write_call (c : RISCVCpu) (ins : Instruction) (hw : is_write_call c ins) :
    system c ins.funct3 ins.imm = ecall_write (c.reg.getD 12 0) 0 c := by
  obtain ⟨_, hf3, himm, h17⟩ := hw
  unfold system handle_ecall
  rw [if_pos hf3, if_pos himm, h17, if_neg (by decide), if_pos rfl]

theorem system_fatal_other (c : RISCVCpu) (ins : Instruction) (hop : ins.opcode = 0x73)
    (hw : ¬ is_write_call c ins) (f : Fatal)
    (h : (system c ins.funct3 ins.imm).outcome = .fatal f) :
    (system c ins.funct3 ins.imm).cpu = c := by
  unfold system handle_ecall at h ⊢
  have h17 : ins.funct3 = 0 → ins.imm = 0 → c.reg.getD 17 0 ≠ 4 :=
    fun a b d => hw ⟨hop, a, b, d⟩
  split_ifs at h ⊢ <;> first | rfl | (exfalso; exact h17 ‹_› ‹_› ‹_›)

theorem execute_fatal (c : RISCVCpu) (ins : Instruction) (f : Fatal)
    (h : (execute c ins).outcome = .fatal f) :
    (execute c ins).cpu.reg = c.reg ∧ (execute c ins).cpu.mem = c.mem ∧
    (execute c ins).cpu.pc = c.pc ∧
    (¬ is_write_call c ins → (execute c ins).cpu.out = c.out) ∧
    (is_write_call c ins → f = .out_of_range ∧ ∃ k, k < c.reg.getD 12 0 ∧
      (∀ j, j < k → (c.reg.getD 11 0 + j) % 2 ^ 32 < c.mem.length) ∧
      c.mem.length ≤ (c.reg.getD 11 0 + k) % 2 ^ 32 ∧
      (execute c ins).cpu.out = c.out ++ emitted c 0 k) := by
  obtain ⟨h1, h2, h3, _⟩ := (execute_framed c ins).2.2 (by rw [h]; simp)
  refine ⟨h1, h2, h3, ?_⟩
  by_cases hw : is_write_call c ins
  · refine ⟨fun hn => absurd hw hn, fun _ => ?_⟩
    have he : execute c ins = ecall_write (c.reg.getD 12 0) 0 c := by
      rw [execute_system c ins hw.1] at h ⊢
      rw [(then_finish_fatal _ _ f h).1]
      exact system_write_call c ins hw
    rw [he] at h ⊢
    obtain ⟨k, hk, hout, hlen, hin⟩ :=
      (ecall_write_out (c.reg.getD 12 0) 0 c).2 (by rw [h]; simp)
    have hf := (ecall_write_frame (c.reg.getD 12 0) 0 c).2.2.2.2
    rw [h] at hf
    refine ⟨?_, k, hk, fun j hj => by simpa using hin j hj, by simpa using hlen, hout⟩
    rcases hf with hf | hf
    · cases hf
    · cases hf; rfl
  · refine ⟨fun _ => ?_, fun hy => absurd hy hw⟩
    by_cases h10 : ins.opcode = 0x73
    · rw [execute_system c ins h10] at h ⊢
      obtain ⟨he, ho⟩ := then_finish_fatal _ _ f h
      rw [he, system_fatal_other c ins h10 hw f ho]
    by_cases h4 : ins.opcode = 0x23
    · rw [execute_store c ins h4] at h ⊢
      obtain ⟨he, ho⟩ := then_finish_fatal _ _ f h
      rw [he, (store_frame c _ _ _ _).1 (by rw [ho]; simp)]
    by_cases h3 : ins.opcode = 0x03
    · rw [execute_load c ins h3] at h ⊢
      split at h
      · rfl
      · cases h
    by_cases h1 : ins.opcode = 0x13
    · rw [execute_op_imm c ins h1] at h; cases h
    by_cases h2 : ins.opcode = 0x33
    · rw [execute_op c ins h2] at h; cases h
    by_cases h5 : ins.opcode = 0x63
    · rw [execute_branch c ins h5] at h; cases h
    by_cases h6 : ins.opcode = 0x6F
    · rw [execute_jal c ins h6] at h; cases h
    by_cases h7 : ins.opcode = 0x67
    · rw [execute_jalr c ins h7] at h; cases h
    by_cases h8 : ins.opcode = 0x37
    · rw [execute_lui c ins h8] at h; cases h
    by_cases h9 : ins.opcode = 0x17
    · rw [execute_auipc c ins h9] at h; cases h
    · rw [execute_default c ins ⟨h1, h2, h3, h4, h5, h6, h7, h8, h9, h10⟩]

theorem add_toU32 (a : Nat) (i : Int) : (a + toU32 i) % 2 ^ 32 = toU32 ((a : Int) + i) := by
  unfold toU32
  omega

theorem read_mem_error (c : RISCVCpu) (addr size : Nat) (haddr : addr < 2 ^ 32)
    (hsize : size < 2 ^ 32) (h : c.mem.length < addr + size) :
    read_mem c addr size = .error .out_of_range := by
  unfold read_mem
  rw [sizeT_of_lt _ (by omega), if_pos h]

theorem step_fetched (c : RISCVCpu) (w : Nat) (h : read_mem c c.pc 4 = .ok w) :
    step c = execute c (decode w) := by
  unfold step
  rw [h]

theorem step_fetch_error (c : RISCVCpu) (f : Fatal) (h : read_mem c c.pc 4 = .error f) :
    step c = ⟨c, .fatal f⟩ := by
  unfold step
  rw [h]

/-! ## Executor: theorems -/

theorem step_framed (c : RISCVCpu) : Framed c (step c) := by
  unfold step
  split
  · exact framed_stopped c c _ (by simp) rfl rfl rfl ⟨[], by simp⟩
  · exact execute_framed c _

theorem reachable_inv (memory_size : Nat) (program : List Nat) (address : Nat) (c : RISCVCpu)
    (h : Reachable memory_size program address c) : c.reg.length = 32 ∧ c.reg[0]? = some 0 := by
  induction h with
  | loaded => exact ⟨by simp [load_program, RISCVCpu.new], by simp [load_program, RISCVCpu.new]⟩
  | stepped c _ ih =>
    obtain ⟨hlen, hdone, hstop⟩ := step_framed c
    refine ⟨by rw [hlen]; exact ih.1, ?_⟩
    by_cases ho : (step c).outcome = .done
    · exact hdone ho (by omega)
    · rw [(hstop ho).1]; exact ih.2

/-- C4. Register 0 is hard-wired to zero: from any machine state with its 32 registers, also
one whose register 0 is not zero, and for any instruction, also one with `rd = 0`, an
`execute` that completes leaves register 0 at zero; and register 0 is zero in every state
reached from a newly built machine by `load_program` and any number of steps, completed or
aborted. -/
theorem register_zero_hardwired :
    (∀ (c : RISCVCpu) (ins : Instruction), c.reg.length = 32 →
      (execute c ins).outcome = .done → (execute c ins).cpu.reg[0]? = some 0) ∧
    (∀ (memory_size : Nat) (program : List Nat) (address : Nat) (c : RISCVCpu),
      Reachable memory_size program address c → c.reg[0]? = some 0) :=
  ⟨fun c ins hlen hdone => (execute_framed c ins).2.1 hdone (by omega),
   fun memory_size program address c h => (reachable_inv memory_size program address c h).2⟩

theorem register_zero_hardwired_witness :
    (execute ⟨List.replicate 32 7, 0, [], []⟩ (decode 0x00500013)).cpu.reg[0]? = some 0 ∧
    (step (load_program (RISCVCpu.new 16) [0x13, 0x00, 0x50, 0x00] 0)).cpu.reg[0]? = some 0 :=
  ⟨register_zero_hardwired.1 ⟨List.replicate 32 7, 0, [], []⟩ (decode 0x00500013)
      (by decide) (by decide),
   register_zero_hardwired.2 16 [0x13, 0x00, 0x50, 0x00] 0 _
      (Reachable.stepped _ Reachable.loaded)⟩

/-- C9 (amended). A step that ends in a fatal condition leaves every register, the memory and
the program counter exactly as they were. The output is as it was too, unless the fetched
instruction is the write system call (`ecall` with register 17 equal to 4): then the condition
is out of bounds and the output has gained exactly the bytes `mem[a1], ..., mem[a1 + k - 1]`,
in order, where `(a1 + k) mod 2 ^ 32` is the first address of the call out of bounds: `k` is
below the byte count in register 12 and every address before the `k`-th is in bounds. -/
theorem fatal_step_frame (c : RISCVCpu) (f : Fatal) (h : (step c).outcome = .fatal f) :
    (step c).cpu.reg = c.reg ∧ (step c).cpu.mem = c.mem ∧ (step c).cpu.pc = c.pc ∧
    ((∀ w, read_mem c c.pc 4 = .ok w → ¬ is_write_call c (decode w)) →
      (step c).cpu.out = c.out) ∧
    (∀ w, read_mem c c.pc 4 = .ok w → is_write_call c (decode w) →
      f = .out_of_range ∧ ∃ k, k < c.reg.getD 12 0 ∧
        (∀ j, j < k → (c.reg.getD 11 0 + j) % 2 ^ 32 < c.mem.length) ∧
        c.mem.length ≤ (c.reg.getD 11 0 + k) % 2 ^ 32 ∧
        (step c).cpu.out = c.out ++ emitted c 0 k) := by
  rcases hr : read_mem c c.pc 4 with g | w
  · rw [step_fetch_error c g hr]
    exact ⟨rfl, rfl, rfl, fun _ => rfl, fun w hw => by cases hw⟩
  · rw [step_fetched c w hr] at h ⊢
    obtain ⟨h1, h2, h3, h4, h5⟩ := execute_fatal c (decode w) f h
    refine ⟨h1, h2, h3, fun hn => h4 (hn w rfl), fun w1 hw1 hcall => ?_⟩
    cases hw1
    exact h5 hcall

theorem fatal_step_frame_witness :
    (step write_past_end).outcome = .fatal .out_of_range ∧
    (step write_past_end).cpu.reg = write_past_end.reg ∧
    (step write_past_end).cpu.mem = write_past_end.mem ∧
    (step write_past_end).cpu.pc = write_past_end.pc ∧
    ∃ k, k < 3 ∧ (∀ j, j < k → (4 + j) % 2 ^ 32 < 6) ∧ 6 ≤ (4 + k) % 2 ^ 32 ∧
      (step write_past_end).cpu.out = [] ++ emitted write_past_end 0 k :=
  have h := fatal_step_frame write_past_end .out_of_range (by decide)
  ⟨by decide, h.1, h.2.1, h.2.2.1, (h.2.2.2.2 0x00000073 (by decide)
    ⟨by decide, by decide, by decide, by decide⟩).2⟩

/-- C9, as stated, fails on the output stream: on `write_past_end` the step is the write
system call for 3 bytes from address 4 of a 6-byte memory; it ends out of bounds, and the
bytes `'h'`, `'i'` have been emitted by then, so the output is no longer what it was. -/
theorem write_past_end_emits :
    (step write_past_end).outcome = .fatal .out_of_range ∧
    write_past_end.out = [] ∧ (step write_past_end).cpu.out = [0x68, 0x69] ∧
    (step write_past_end).cpu.out ≠ write_past_end.out := by
  decide

/-- C10. Load out of bounds: for a load instruction (opcode 0x03, `funct3` 0, 1, 2, 4, 5 of
access width 1, 2, 4, 1, 2) whose effective address, `rs1` value plus immediate modulo
`2 ^ 32`, plus the access width exceeds the memory length, `execute` stops with the
out-of-bounds condition and leaves the whole state, registers, memory and program counter, as
it was; so does the step that fetched the instruction. -/
theorem load_out_of_bounds (c : RISCVCpu) (ins : Instruction) (width : Nat)
    (hop : ins.opcode = 0x03)
    (hf3 : (ins.funct3 = 0 ∧ width = 1) ∨ (ins.funct3 = 1 ∧ width = 2) ∨
      (ins.funct3 = 2 ∧ width = 4) ∨ (ins.funct3 = 4 ∧ width = 1) ∨
      (ins.funct3 = 5 ∧ width = 2))
    (hoob : c.mem.length < toU32 ((c.reg.getD ins.rs1 0 : Int) + ins.imm) + width) :
    execute c ins = ⟨c, .fatal .out_of_range⟩ ∧
    (∀ w, read_mem c c.pc 4 = .ok w → decode w = ins →
      step c = ⟨c, .fatal .out_of_range⟩) := by
  have hex : execute c ins = ⟨c, .fatal .out_of_range⟩ := by
    rw [← add_toU32] at hoob
    have hlt : (c.reg.getD ins.rs1 0 + toU32 ins.imm) % 2 ^ 32 < 2 ^ 32 :=
      Nat.mod_lt _ (by decide)
    have hload : load c ins.funct3 (c.reg.getD ins.rs1 0) ins.imm = .error .out_of_range := by
      unfold load
      simp only []
      rcases hf3 with ⟨h, hw⟩ | ⟨h, hw⟩ | ⟨h, hw⟩ | ⟨h, hw⟩ | ⟨h, hw⟩ <;> subst hw <;>
        simp only [h, ↓reduceIte, Nat.reduceEqDiff] <;>
        rw [read_mem_error c _ _ hlt (by decide) hoob] <;> rfl
    rw [execute_load c ins hop, hload]
  refine ⟨hex, fun w hr hd => ?_⟩
  rw [step_fetched c w hr, hd, hex]

theorem load_out_of_bounds_witness :
    read_mem load_past_end load_past_end.pc 4 = .ok 0x00802083 ∧
    step load_past_end = ⟨load_past_end, .fatal .out_of_range⟩ :=
  ⟨by decide,
   (load_out_of_bounds load_past_end (decode 0x00802083) 4 (by decide)
      (Or.inr (Or.inr (Or.inl ⟨by decide, rfl⟩))) (by decide)).2 0x00802083 (by decide) rfl⟩

/-! ## Fetch, memory frame and program loading -/

theorem bits_6_0 (w : Nat) : bits w 6 0 = w &&& 0x7F := by
  unfold bits
  rw [Nat.shiftRight_zero]
  exact (Nat.and_pow_two_sub_one_eq_mod w 7).symm

/-- C11. Unsupported opcode: when the program counter is in bounds for a 4-byte fetch and the
opcode, `bits[6:0]`, of the fetched word is none of 0x03, 0x13, 0x17, 0x23, 0x33, 0x37, 0x63,
0x67, 0x6F, 0x73, the step stops with the unsupported-instruction condition and leaves the
whole state, registers, memory, program counter and output, as it was before the fetch. -/
theorem unsupported_opcode (c : RISCVCpu) (hpc : c.pc < 2 ^ 32)
    (hb : c.pc + 4 ≤ c.mem.length)
    (hop : bits (read_loop c.mem c.pc 4) 6 0 ∉
      [0x03, 0x13, 0x17, 0x23, 0x33, 0x37, 0x63, 0x67, 0x6F, 0x73]) :
    read_mem c c.pc 4 = .ok (read_loop c.mem c.pc 4) ∧
    step c = ⟨c, .fatal .unsupported_instruction⟩ := by
  have hr : read_mem c c.pc 4 = .ok (read_loop c.mem c.pc 4) :=
    read_mem_ok c c.pc 4 (by rw [sizeT_of_lt _ (by omega)]; exact hb)
  refine ⟨hr, ?_⟩
  rw [step_fetched c _ hr]
  rw [bits_6_0] at hop
  simp only [List.mem_cons, List.mem_singleton, not_or, List.not_mem_nil, or_false] at hop
  obtain ⟨h1, h2, h3, h4, h5, h6, h7, h8, h9, h10⟩ := hop
  exact execute_default c _ ⟨h2, h5, h1, h4, h7, h9, h8, h6, h3, h10⟩

theorem unsupported_opcode_witness :
    step ⟨List.replicate 32 0, 0, [0xFF, 0xFF, 0xFF, 0xFF], []⟩
      = ⟨⟨List.replicate 32 0, 0, [0xFF, 0xFF, 0xFF, 0xFF], []⟩,
          .fatal .unsupported_instruction⟩ :=
  (unsupported_opcode ⟨List.replicate 32 0, 0, [0xFF, 0xFF, 0xFF, 0xFF], []⟩
    (by decide) (by decide) (by decide)).2

theorem read_loop_congr (mem1 mem2 : List Nat) (addr : Nat) (size : Nat)
    (h : ∀ i < size, mem1.getD (addr + i) 0 = mem2.getD (addr + i) 0) :
    read_loop mem1 addr size = read_loop mem2 addr size := by
  unfold read_loop
  induction size with
  | zero => rfl
  | succ n ih =>
    rw [List.range_succ, List.foldl_append, List.foldl_append, ih (fun i hi => h i (by omega))]
    simp only [List.foldl_cons, List.foldl_nil]
    rw [h n (by omega)]

/-- Bytes of memory that the store loop does not reach. -/
theorem write_loop_getElem?_outside (addr value : Nat) (n : Nat) (mem : List Nat) (j : Nat)
    (hj : j < addr ∨ addr + n ≤ j) :
    (write_loop mem addr value n)[j]? = mem[j]? := by
  induction n with
  | zero => rfl
  | succ n ih =>
    have hstep : write_loop mem addr value (n + 1)
        = (write_loop mem addr value n).set (addr + n) ((value >>> (n * 8)) &&& 0xFF) := by
      unfold write_loop
      rw [List.range_succ, List.foldl_append]
      rfl
    rw [hstep, List.getElem?_set, if_neg (by omega), ih (by omega)]

/-- C20. Write frame: for a 32-bit `addr`, a width in {1, 2, 4} and any value with
`addr + width` not exceeding the memory length, `write_mem` returns normally, leaves the memory
length unchanged and leaves unchanged every byte whose index lies outside
`[addr, addr + width)`; hence `read_mem` of any in-bounds range disjoint from
`[addr, addr + width)` returns the same value before and after the write. -/
theorem write_mem_frame_outside (c : RISCVCpu) (addr width value : Nat) (haddr : addr < 2 ^ 32)
    (hwidth : width = 1 ∨ width = 2 ∨ width = 4) (hb : addr + width ≤ c.mem.length) :
    (write_mem c addr value width).outcome = .done ∧
    (write_mem c addr value width).cpu.mem.length = c.mem.length ∧
    (∀ j, j < addr ∨ addr + width ≤ j →
      (write_mem c addr value width).cpu.mem[j]? = c.mem[j]?) ∧
    (∀ addr2 size2, addr2 < 2 ^ 32 → addr2 + size2 ≤ c.mem.length →
      addr2 + size2 ≤ addr ∨ addr + width ≤ addr2 →
      read_mem (write_mem c addr value width).cpu addr2 size2 = read_mem c addr2 size2) := by
  have hs : sizeT (addr + width) ≤ c.mem.length := by
    rw [sizeT_of_lt _ (by omega)]; exact hb
  rw [write_mem_ok c addr value width hs]
  have hlen := write_loop_length addr value width c.mem
  have hout := write_loop_getElem?_outside addr value width c.mem
  refine ⟨rfl, hlen, hout, ?_⟩
  intro addr2 size2 _ hb2 hdis
  unfold read_mem
  simp only [hlen]
  congr 1
  apply congrArg
  apply read_loop_congr
  intro i hi
  rw [List.getD_eq_getElem?_getD, List.getD_eq_getElem?_getD, hout _ (by omega)]

theorem write_mem_frame_outside_witness :
    (write_mem ⟨[], 0, [1, 2, 3, 4, 5, 6, 7, 8], []⟩ 2 0xAABBCCDD 4).cpu.mem
      = [1, 2, 0xDD, 0xCC, 0xBB, 0xAA, 7, 8] ∧
    read_mem (write_mem ⟨[], 0, [1, 2, 3, 4, 5, 6, 7, 8], []⟩ 2 0xAABBCCDD 4).cpu 6 2
      = read_mem ⟨[], 0, [1, 2, 3, 4, 5, 6, 7, 8], []⟩ 6 2 :=
  ⟨by decide,
   (write_mem_frame_outside ⟨[], 0, [1, 2, 3, 4, 5, 6, 7, 8], []⟩ 2 4 0xAABBCCDD (by decide)
      (Or.inr (Or.inr rfl)) (by decide)).2.2.2 6 2 (by decide) (by decide)
      (Or.inr (by decide))⟩

theorem copy_length (program : List Nat) : ∀ (a : Nat) (mem : List Nat),
    (copy program a mem).length = mem.length := by
  induction program with
  | nil => intro a mem; rfl
  | cons b p ih => intro a mem; rw [copy, ih, List.length_set]

theorem copy_getElem?_outside (program : List Nat) : ∀ (a : Nat) (mem : List Nat) (j : Nat),
    j < a ∨ a + program.length ≤ j → (copy program a mem)[j]? = mem[j]? := by
  induction program with
  | nil => intro a mem j _; rfl
  | cons b p ih =>
    intro a mem j hj
    rw [List.length_cons] at hj
    rw [copy, ih (a + 1) _ j (by omega), List.getElem?_set, if_neg (by omega)]

theorem copy_getElem?_inside (program : List Nat) : ∀ (a : Nat) (mem : List Nat) (i : Nat),
    a + program.length ≤ mem.length → i < program.length →
    (copy program a mem)[a + i]? = program[i]? := by
  induction program with
  | nil => intro a mem i _ hi; simp at hi
  | cons b p ih =>
    intro a mem i hlen hi
    rw [List.length_cons] at hlen hi
    rw [copy]
    cases i with
    | zero =>
      simp only [Nat.add_zero, List.getElem?_cons_zero]
      rw [copy_getElem?_outside p (a + 1) _ a (by omega), List.getElem?_set,
        if_pos rfl, if_pos (by omega)]
    | succ k =>
      have e : a + (k + 1) = a + 1 + k := by omega
      rw [e, ih (a + 1) _ k (by rw [List.length_set]; omega) (by omega),
        List.getElem?_cons_succ]

/-- C17. Program loading: for a base address and a program whose end fits `size_t`, so for
every 32-bit base address and every program that a `std::vector` can hold,
after `load_program` the memory length is the maximum of the old length and
`address + program.length`, never smaller than before; the program sits at `address`; every
old byte outside `[address, address + program.length)` is unchanged; every byte from the old
length up to `address` is zero; the program counter is `address`; registers and output are
unchanged. -/
theorem load_program_spec (c : RISCVCpu) (program : List Nat) (address : Nat)
    (hsize : address + program.length < 2 ^ 64) :
    (load_program c program address).mem.length
      = max c.mem.length (address + program.length) ∧
    c.mem.length ≤ (load_program c program address).mem.length ∧
    (∀ i, i < program.length →
      (load_program c program address).mem[address + i]? = program[i]?) ∧
    (∀ j, j < c.mem.length → j < address ∨ address + program.length ≤ j →
      (load_program c program address).mem[j]? = c.mem[j]?) ∧
    (∀ j, c.mem.length ≤ j → j < address →
      (load_program c program address).mem[j]? = some 0) ∧
    (load_program c program address).pc = address ∧
    (load_program c program address).reg = c.reg ∧
    (load_program c program address).out = c.out := by
  have hs : sizeT (address + program.length) = address + program.length :=
    sizeT_of_lt _ hsize
  unfold load_program
  simp only [hs]
  by_cases hgrow : address + program.length > c.mem.length
  · simp only [if_pos hgrow, copy_length, List.length_append, List.length_replicate]
    have hl : (c.mem ++ List.replicate (address + program.length - c.mem.length) 0).length
        = address + program.length := by
      rw [List.length_append, List.length_replicate]; omega
    refine ⟨by omega, by omega, ?_, ?_, ?_, trivial, trivial, trivial⟩
    · intro i hi
      exact copy_getElem?_inside program address _ i (by omega) hi
    · intro j hj hout
      rw [copy_getElem?_outside program address _ j hout, List.getElem?_append_left hj]
    · intro j hj1 hj2
      rw [copy_getElem?_outside program address _ j (Or.inl hj2),
        List.getElem?_append_right hj1, List.getElem?_replicate, if_pos (by omega)]
  · simp only [if_neg hgrow, copy_length]
    refine ⟨by omega, by omega, ?_, ?_, ?_, trivial, trivial, trivial⟩
    · intro i hi
      exact copy_getElem?_inside program address _ i (by omega) hi
    · intro j _ hout
      exact copy_getElem?_outside program address _ j hout
    · intro j hj1 hj2
      omega

theorem load_program_spec_witness :
    (load_program ⟨[7], 9, [1, 2], [5]⟩ [0xAA, 0xBB] 4).mem = [1, 2, 0, 0, 0xAA, 0xBB] ∧
    (load_program ⟨[7], 9, [1, 2], [5]⟩ [0xAA, 0xBB] 4).mem.length = max 2 (4 + 2) ∧
    (load_program ⟨[7], 9, [1, 2], [5]⟩ [0xAA, 0xBB] 4).pc = 4 :=
  have h := load_program_spec ⟨[7], 9, [1, 2], [5]⟩ [0xAA, 0xBB] 4 (by decide)
  ⟨by decide, h.1, h.2.2.2.2.2.1⟩

/-! ## Executor: jumps, loads, branches, system calls -/

/-- Registers after `if (ins.rd) reg[ins.rd] = result; ... reg[0] = 0;`. -/
theorem finish_write_rd (c : RISCVCpu) (rd result next_pc : Nat) :
    (finish (write_rd c rd result) next_pc).outcome = .done ∧
    (finish (write_rd c rd result) next_pc).cpu.pc = next_pc ∧
    (finish (write_rd c rd result) next_pc).cpu.mem = c.mem ∧
    (finish (write_rd c rd result) next_pc).cpu.out = c.out ∧
    (finish (write_rd c rd result) next_pc).cpu.reg.length = c.reg.length ∧
    (rd ≠ 0 → rd < c.reg.length →
      (finish (write_rd c rd result) next_pc).cpu.reg[rd]? = some result) ∧
    (0 < c.reg.length → (finish (write_rd c rd result) next_pc).cpu.reg[0]? = some 0) ∧
    (∀ j, j ≠ 0 → j ≠ rd →
      (finish (write_rd c rd result) next_pc).cpu.reg[j]? = c.reg[j]?) := by
  unfold finish write_rd
  by_cases h : rd ≠ 0
  · simp only [if_pos h]
    refine ⟨trivial, trivial, trivial, trivial, by simp, fun _ hlt => ?_, fun hpos => ?_, fun j h0 hj => ?_⟩
    · rw [List.getElem?_set_ne (Ne.symm h), List.getElem?_set_self hlt]
    · rw [List.getElem?_set_self (by rw [List.length_set]; exact hpos)]
    · rw [List.getElem?_set_ne (Ne.symm h0), List.getElem?_set_ne (Ne.symm hj)]
  · simp only [if_neg h]
    refine ⟨trivial, trivial, trivial, trivial, by simp, fun h1 => absurd h1 h, fun hpos => ?_, fun j h0 _ => ?_⟩
    · rw [List.getElem?_set_self hpos]
    · rw [List.getElem?_set_ne (Ne.symm h0)]

theorem and_fffffffe (t : Nat) (h : t < 2 ^ 32) : t &&& 0xFFFFFFFE = t - t % 2 := by
  have h1 : (t &&& 0xFFFFFFFE) % 2 ^ 1 = 0 := and_eq_zero_of_masks t _ 1 (by decide)
  have h2 : t &&& (0xFFFFFFFE ||| 1) = t := by
    have e : (0xFFFFFFFE ||| 1 : Nat) = 2 ^ 32 - 1 := by decide
    rw [e, Nat.and_pow_two_sub_one_eq_mod, Nat.mod_eq_of_lt h]
  rw [Nat.and_or_distrib_left, Nat.and_one_is_mod] at h2
  have h3 : t &&& 0xFFFFFFFE = 2 ^ 1 * ((t &&& 0xFFFFFFFE) / 2 ^ 1) := by omega
  rw [h3, ← Nat.mul_add_lt_is_or (by omega)] at h2
  omega

/-- C14. Indirect jump: for a JALR instruction (opcode 0x67) with any `rd`, `rs1` and immediate,
on a machine with its 32 registers, `execute` completes, sets the program counter to
`(rs1 value before the step + immediate) mod 2 ^ 32` with bit 0 cleared, and, when `rd` is not
0, sets `rd` to `(pc + 4) mod 2 ^ 32`; the target is computed from the value that `rs1` held
before the link write, also when `rd` equals `rs1`. -/
theorem jalr_spec (c : RISCVCpu) (ins : Instruction) (hop : ins.opcode = 0x67)
    (hlen : c.reg.length = 32) (hrd : ins.rd < 32) :
    (execute c ins).outcome = .done ∧
    (execute c ins).cpu.pc
      = toU32 ((c.reg.getD ins.rs1 0 : Int) + ins.imm)
        - toU32 ((c.reg.getD ins.rs1 0 : Int) + ins.imm) % 2 ∧
    (ins.rd ≠ 0 → (execute c ins).cpu.reg[ins.rd]? = some ((c.pc + 4) % 2 ^ 32)) ∧
    (ins.rd = ins.rs1 → (execute c ins).cpu.pc
      = toU32 ((c.reg.getD ins.rd 0 : Int) + ins.imm)
        - toU32 ((c.reg.getD ins.rd 0 : Int) + ins.imm) % 2) := by
  rw [execute_jalr c ins hop]
  obtain ⟨h1, h2, _, _, _, h6, _, _⟩ := finish_write_rd c ins.rd ((c.pc + 4) % 2 ^ 32)
    (((c.reg.getD ins.rs1 0 + toU32 ins.imm) % 2 ^ 32) &&& 0xFFFFFFFE)
  have hpc : ((c.reg.getD ins.rs1 0 + toU32 ins.imm) % 2 ^ 32) &&& 0xFFFFFFFE
      = toU32 ((c.reg.getD ins.rs1 0 : Int) + ins.imm)
        - toU32 ((c.reg.getD ins.rs1 0 : Int) + ins.imm) % 2 := by
    rw [and_fffffffe _ (Nat.mod_lt _ (by decide)), add_toU32]
  refine ⟨h1, by rw [h2, hpc], fun h => h6 h (by omega), fun h => ?_⟩
  rw [h2, hpc, h]

theorem jalr_spec_witness :
    (execute ⟨(List.replicate 32 0).set 1 0x1003, 0x20, [], []⟩
      ⟨0x67, 1, 1, 0, 0, 0, 4⟩).cpu.pc = 0x1006 ∧
    (execute ⟨(List.replicate 32 0).set 1 0x1003, 0x20, [], []⟩
      ⟨0x67, 1, 1, 0, 0, 0, 4⟩).cpu.reg[1]? = some 0x24 :=
  have h := jalr_spec ⟨(List.replicate 32 0).set 1 0x1003, 0x20, [], []⟩
    ⟨0x67, 1, 1, 0, 0, 0, 4⟩ rfl (by decide) (by decide)
  ⟨h.2.1.trans (by decide), h.2.2.1 (by decide)⟩

theorem read_loop_two (mem : List Nat) (addr : Nat) (h : ∀ b ∈ mem, b < 256) :
    read_loop mem addr 2 = mem.getD addr 0 + mem.getD (addr + 1) 0 * 256 := by
  have hlt := getD_lt_of_forall mem h
  unfold read_loop
  rw [range_two]
  simp only [List.foldl_cons, List.foldl_nil]
  rw [or_bytes2 _ _ (hlt _) (hlt _)]
  rfl

theorem read_loop_four (mem : List Nat) (addr : Nat) (h : ∀ b ∈ mem, b < 256) :
    read_loop mem addr 4 = mem.getD addr 0 + mem.getD (addr + 1) 0 * 256
      + mem.getD (addr + 2) 0 * 65536 + mem.getD (addr + 3) 0 * 16777216 := by
  have hlt := getD_lt_of_forall mem h
  unfold read_loop
  rw [range_four]
  simp only [List.foldl_cons, List.foldl_nil]
  rw [or_bytes4 _ _ _ _ (hlt _) (hlt _) (hlt _) (hlt _)]
  rfl

theorem read_loop_one_byte (mem : List Nat) (addr : Nat) (h : ∀ b ∈ mem, b < 256) :
    read_loop mem addr 1 = mem.getD addr 0 := by
  have hlt := getD_lt_of_forall mem h addr
  rw [read_loop_one]
  omega

/-- C13. Load extension: for a load instruction (opcode 0x03) with `rd` in 1..31, on a machine
with its 32 registers and a memory of bytes, whose effective address
`a = (rs1 value + immediate) mod 2 ^ 32` is in bounds for the access width, `execute`
completes, leaves memory unchanged, sets the program counter to `pc + 4` (32-bit) and sets `rd`
to: the byte at `a` sign-extended from bit 7 for LB (`funct3` 0); the little-endian half-word
at `a` sign-extended from bit 15 for LH (1); the little-endian word at `a` for LW (2); the byte
at `a` zero-extended for LBU (4); the half-word at `a` zero-extended for LHU (5). -/
theorem load_extension (c : RISCVCpu) (ins : Instruction) (width : Nat)
    (hop : ins.opcode = 0x03) (hlen : c.reg.length = 32) (hrd0 : ins.rd ≠ 0)
    (hrd : ins.rd < 32) (hbytes : ∀ b ∈ c.mem, b < 256)
    (hf3 : (ins.funct3 = 0 ∧ width = 1) ∨ (ins.funct3 = 1 ∧ width = 2) ∨
      (ins.funct3 = 2 ∧ width = 4) ∨ (ins.funct3 = 4 ∧ width = 1) ∨
      (ins.funct3 = 5 ∧ width = 2))
    (hb : toU32 ((c.reg.getD ins.rs1 0 : Int) + ins.imm) + width ≤ c.mem.length) :
    (execute c ins).outcome = .done ∧ (execute c ins).cpu.mem = c.mem ∧
    (execute c ins).cpu.pc = (c.pc + 4) % 2 ^ 32 ∧
    (c.pc + 4 < 2 ^ 32 → (execute c ins).cpu.pc = c.pc + 4) ∧
    (ins.funct3 = 0 → (execute c ins).cpu.reg[ins.rd]? = some (toU32 (signExtend 7
      (c.mem.getD (toU32 ((c.reg.getD ins.rs1 0 : Int) + ins.imm)) 0)))) ∧
    (ins.funct3 = 1 → (execute c ins).cpu.reg[ins.rd]? = some (toU32 (signExtend 15
      (c.mem.getD (toU32 ((c.reg.getD ins.rs1 0 : Int) + ins.imm)) 0
        + c.mem.getD (toU32 ((c.reg.getD ins.rs1 0 : Int) + ins.imm) + 1) 0 * 256)))) ∧
    (ins.funct3 = 2 → (execute c ins).cpu.reg[ins.rd]? = some
      (c.mem.getD (toU32 ((c.reg.getD ins.rs1 0 : Int) + ins.imm)) 0
        + c.mem.getD (toU32 ((c.reg.getD ins.rs1 0 : Int) + ins.imm) + 1) 0 * 256
        + c.mem.getD (toU32 ((c.reg.getD ins.rs1 0 : Int) + ins.imm) + 2) 0 * 65536
        + c.mem.getD (toU32 ((c.reg.getD ins.rs1 0 : Int) + ins.imm) + 3) 0 * 16777216)) ∧
    (ins.funct3 = 4 → (execute c ins).cpu.reg[ins.rd]? = some
      (c.mem.getD (toU32 ((c.reg.getD ins.rs1 0 : Int) + ins.imm)) 0)) ∧
    (ins.funct3 = 5 → (execute c ins).cpu.reg[ins.rd]? = some
      (c.mem.getD (toU32 ((c.reg.getD ins.rs1 0 : Int) + ins.imm)) 0
        + c.mem.getD (toU32 ((c.reg.getD ins.rs1 0 : Int) + ins.imm) + 1) 0 * 256)) := by
  rw [← add_toU32] at hb ⊢
  generalize ha : (c.reg.getD ins.rs1 0 + toU32 ins.imm) % 2 ^ 32 = a at hb ⊢
  have halt : a < 2 ^ 32 := by rw [← ha]; exact Nat.mod_lt _ (by decide)
  have hread : ∀ w, w ≤ width → read_mem c a w = .ok (read_loop c.mem a w) := fun w hw =>
    read_mem_ok c a w (by
      rcases hf3 with ⟨_, h⟩ | ⟨_, h⟩ | ⟨_, h⟩ | ⟨_, h⟩ | ⟨_, h⟩ <;>
        (rw [sizeT_of_lt _ (by omega)]; omega))
  have key : ∀ v, load c ins.funct3 (c.reg.getD ins.rs1 0) ins.imm = .ok v →
      (execute c ins).outcome = .done ∧ (execute c ins).cpu.mem = c.mem ∧
      (execute c ins).cpu.pc = (c.pc + 4) % 2 ^ 32 ∧
      (c.pc + 4 < 2 ^ 32 → (execute c ins).cpu.pc = c.pc + 4) ∧
      (execute c ins).cpu.reg[ins.rd]? = some v := by
    intro v hv
    rw [execute_load c ins hop, hv]
    simp only []
    obtain ⟨h1, h2, h3, _, _, h6, _, _⟩ := finish_write_rd c ins.rd v ((c.pc + 4) % 2 ^ 32)
    exact ⟨h1, h3, h2, fun h => by rw [h2]; omega, h6 hrd0 (by omega)⟩
  rcases hf3 with ⟨h, hw⟩ | ⟨h, hw⟩ | ⟨h, hw⟩ | ⟨h, hw⟩ | ⟨h, hw⟩ <;> subst hw
  · have hv : load c ins.funct3 (c.reg.getD ins.rs1 0) ins.imm
        = .ok (toU32 (signExtend 7 (c.mem.getD a 0))) := by
      unfold load
      simp only [ha, h, ↓reduceIte]
      rw [hread 1 (le_refl _), read_loop_one_byte _ _ hbytes]
      rfl
    obtain ⟨k1, k2, k3, k4, k5⟩ := key _ hv
    refine ⟨k1, k2, k3, k4, ?_, ?_, ?_, ?_, ?_⟩ <;> intro h2 <;>
      first | (exfalso; omega) | exact k5
  · have hv : load c ins.funct3 (c.reg.getD ins.rs1 0) ins.imm
        = .ok (toU32 (signExtend 15 (c.mem.getD a 0 + c.mem.getD (a + 1) 0 * 256))) := by
      unfold load
      simp only [ha, h, ↓reduceIte, Nat.reduceEqDiff]
      rw [hread 2 (le_refl _), read_loop_two _ _ hbytes]
      rfl
    obtain ⟨k1, k2, k3, k4, k5⟩ := key _ hv
    refine ⟨k1, k2, k3, k4, ?_, ?_, ?_, ?_, ?_⟩ <;> intro h2 <;>
      first | (exfalso; omega) | exact k5
  · have hv : load c ins.funct3 (c.reg.getD ins.rs1 0) ins.imm
        = .ok (c.mem.getD a 0 + c.mem.getD (a + 1) 0 * 256
          + c.mem.getD (a + 2) 0 * 65536 + c.mem.getD (a + 3) 0 * 16777216) := by
      unfold load
      simp only [ha, h, ↓reduceIte, Nat.reduceEqDiff]
      rw [hread 4 (le_refl _), read_loop_four _ _ hbytes]
    obtain ⟨k1, k2, k3, k4, k5⟩ := key _ hv
    refine ⟨k1, k2, k3, k4, ?_, ?_, ?_, ?_, ?_⟩ <;> intro h2 <;>
      first | (exfalso; omega) | exact k5
  · have hv : load c ins.funct3 (c.reg.getD ins.rs1 0) ins.imm = .ok (c.mem.getD a 0) := by
      unfold load
      simp only [ha, h, ↓reduceIte, Nat.reduceEqDiff]
      rw [hread 1 (le_refl _), read_loop_one_byte _ _ hbytes]
    obtain ⟨k1, k2, k3, k4, k5⟩ := key _ hv
    refine ⟨k1, k2, k3, k4, ?_, ?_, ?_, ?_, ?_⟩ <;> intro h2 <;>
      first | (exfalso; omega) | exact k5
  · have hv : load c ins.funct3 (c.reg.getD ins.rs1 0) ins.imm
        = .ok (c.mem.getD a 0 + c.mem.getD (a + 1) 0 * 256) := by
      unfold load
      simp only [ha, h, ↓reduceIte, Nat.reduceEqDiff]
      rw [hread 2 (le_refl _), read_loop_two _ _ hbytes]
    obtain ⟨k1, k2, k3, k4, k5⟩ := key _ hv
    refine ⟨k1, k2, k3, k4, ?_, ?_, ?_, ?_, ?_⟩ <;> intro h2 <;>
      first | (exfalso; omega) | exact k5

theorem load_extension_witness :
    (execute ⟨List.replicate 32 0, 0, [0x80, 0xFF], []⟩ ⟨0x03, 5, 0, 0, 0, 0, 0⟩).cpu.reg[5]?
      = some 0xFFFFFF80 ∧
    (execute ⟨List.replicate 32 0, 0, [0x80, 0xFF], []⟩ ⟨0x03, 5, 0, 0, 5, 0, 0⟩).cpu.reg[5]?
      = some 0xFF80 :=
  ⟨((load_extension ⟨List.replicate 32 0, 0, [0x80, 0xFF], []⟩ ⟨0x03, 5, 0, 0, 0, 0, 0⟩ 1
      rfl (by decide) (by decide) (by decide) (by decide) (Or.inl ⟨rfl, rfl⟩)
      (by decide)).2.2.2.2.1 rfl).trans (by decide),
   ((load_extension ⟨List.replicate 32 0, 0, [0x80, 0xFF], []⟩ ⟨0x03, 5, 0, 0, 5, 0, 0⟩ 2
      rfl (by decide) (by decide) (by decide) (by decide)
      (Or.inr (Or.inr (Or.inr (Or.inr ⟨rfl, rfl⟩))))
      (by decide)).2.2.2.2.2.2.2.2 rfl).trans (by decide)⟩

theorem set_zero_of_zero (reg : List Nat) (h : reg[0]? = some 0) : reg.set 0 0 = reg := by
  cases reg with
  | nil => rfl
  | cons a l =>
    simp only [List.getElem?_cons_zero, Option.some.injEq] at h
    rw [h]
    rfl

/-- C18. Branch complements: for any two register values, BLT (`funct3` 4) takes the branch
exactly when the first is below the second as signed 32-bit integers and BGE (5) exactly when
BLT does not; BLTU (6) takes it exactly when the first is below the second as unsigned numbers
and BGEU (7) exactly when BLTU does not. From a machine state that satisfies the invariant of
the data model, register 0 equal to zero, as every state of a run does, a branch instruction
that takes the branch sets the program counter to `pc + immediate`, one that does not sets it
to `pc + 4` (32-bit sums), and either way registers, memory and output are unchanged. -/
theorem branch_complement (c : RISCVCpu) (ins : Instruction) (hop : ins.opcode = 0x63)
    (h0 : c.reg[0]? = some 0) :
    (∀ a b : Nat, (branch 4 a b = true ↔ toS32 a < toS32 b) ∧
      (branch 5 a b = true ↔ ¬ branch 4 a b = true) ∧
      (branch 6 a b = true ↔ a < b) ∧
      (branch 7 a b = true ↔ ¬ branch 6 a b = true)) ∧
    (execute c ins).outcome = .done ∧
    (branch ins.funct3 (c.reg.getD ins.rs1 0) (c.reg.getD ins.rs2 0) = true →
      (execute c ins).cpu.pc = toU32 ((c.pc : Int) + ins.imm)) ∧
    (branch ins.funct3 (c.reg.getD ins.rs1 0) (c.reg.getD ins.rs2 0) = false →
      (execute c ins).cpu.pc = (c.pc + 4) % 2 ^ 32) ∧
    (execute c ins).cpu.mem = c.mem ∧ (execute c ins).cpu.out = c.out ∧
    (execute c ins).cpu.reg = c.reg ∧
    (branch ins.funct3 (c.reg.getD ins.rs1 0) (c.reg.getD ins.rs2 0) = true →
      0 ≤ (c.pc : Int) + ins.imm → (c.pc : Int) + ins.imm < 2 ^ 32 →
      ((execute c ins).cpu.pc : Int) = (c.pc : Int) + ins.imm) ∧
    (branch ins.funct3 (c.reg.getD ins.rs1 0) (c.reg.getD ins.rs2 0) = false →
      c.pc + 4 < 2 ^ 32 → (execute c ins).cpu.pc = c.pc + 4) := by
  refine ⟨fun a b => ?_, ?_⟩
  · unfold branch
    simp only [↓reduceIte, Nat.reduceEqDiff, decide_eq_true_eq]
    exact ⟨trivial, not_lt.symm, trivial, not_lt.symm⟩
  · rw [execute_branch c ins hop]
    have taken : branch ins.funct3 (c.reg.getD ins.rs1 0) (c.reg.getD ins.rs2 0) = true →
        (finish c (if branch ins.funct3 (c.reg.getD ins.rs1 0) (c.reg.getD ins.rs2 0) = true
          then (c.pc + toU32 ins.imm) % 2 ^ 32 else (c.pc + 4) % 2 ^ 32)).cpu.pc
          = toU32 ((c.pc : Int) + ins.imm) := by
      intro h
      show (if branch ins.funct3 (c.reg.getD ins.rs1 0) (c.reg.getD ins.rs2 0) = true
        then (c.pc + toU32 ins.imm) % 2 ^ 32 else (c.pc + 4) % 2 ^ 32) = _
      rw [if_pos h, add_toU32]
    have skipped : branch ins.funct3 (c.reg.getD ins.rs1 0) (c.reg.getD ins.rs2 0) = false →
        (finish c (if branch ins.funct3 (c.reg.getD ins.rs1 0) (c.reg.getD ins.rs2 0) = true
          then (c.pc + toU32 ins.imm) % 2 ^ 32 else (c.pc + 4) % 2 ^ 32)).cpu.pc
          = (c.pc + 4) % 2 ^ 32 := by
      intro h
      show (if branch ins.funct3 (c.reg.getD ins.rs1 0) (c.reg.getD ins.rs2 0) = true
        then (c.pc + toU32 ins.imm) % 2 ^ 32 else (c.pc + 4) % 2 ^ 32) = _
      rw [if_neg (by rw [h]; simp)]
    refine ⟨rfl, taken, skipped, rfl, rfl, set_zero_of_zero _ h0,
      fun h h1 h2 => ?_, fun h h1 => ?_⟩
    · rw [taken h]
      unfold toU32
      omega
    · rw [skipped h]
      omega

theorem branch_complement_witness :
    (execute ⟨(List.replicate 32 0).set 1 0xFFFFFFFF, 16, [], []⟩
      ⟨0x63, 0, 1, 2, 4, 0, -8⟩).cpu.pc = 8 ∧
    (execute ⟨(List.replicate 32 0).set 1 0xFFFFFFFF, 16, [], []⟩
      ⟨0x63, 0, 1, 2, 5, 0, -8⟩).cpu.pc = 20 ∧
    (execute ⟨(List.replicate 32 0).set 1 0xFFFFFFFF, 16, [], []⟩
      ⟨0x63, 0, 1, 2, 4, 0, -8⟩).cpu.reg = (List.replicate 32 0).set 1 0xFFFFFFFF :=
  ⟨((branch_complement ⟨(List.replicate 32 0).set 1 0xFFFFFFFF, 16, [], []⟩
      ⟨0x63, 0, 1, 2, 4, 0, -8⟩ rfl (by decide)).2.2.1 (by decide)).trans (by decide),
   ((branch_complement ⟨(List.replicate 32 0).set 1 0xFFFFFFFF, 16, [], []⟩
      ⟨0x63, 0, 1, 2, 5, 0, -8⟩ rfl (by decide)).2.2.2.1 (by decide)).trans (by decide),
   (branch_complement ⟨(List.replicate 32 0).set 1 0xFFFFFFFF, 16, [], []⟩
      ⟨0x63, 0, 1, 2, 4, 0, -8⟩ rfl (by decide)).2.2.2.2.2.2.1⟩

theorem then_finish_with_congr (fin fin' : RISCVCpu → Nat → Effect) (e : Effect)
    (next_pc : Nat) (h : e.outcome = .done → fin e.cpu next_pc = fin' e.cpu next_pc) :
    then_finish_with fin e next_pc = then_finish_with fin' e next_pc := by
  unfold then_finish_with
  split
  · rename_i hd; exact h hd
  · rfl

/-- Two instances of `execute_with` agree as soon as their ends of step agree after their
destination writes and on states with the registers of the start. -/
theorem execute_with_congr (wr wr' : RISCVCpu → Nat → Nat → RISCVCpu)
    (fin fin' : RISCVCpu → Nat → Effect) (c : RISCVCpu) (ins : Instruction)
    (h1 : ∀ rd v next_pc, fin (wr c rd v) next_pc = fin' (wr' c rd v) next_pc)
    (h2 : ∀ c1 next_pc, c1.reg = c.reg → fin c1 next_pc = fin' c1 next_pc) :
    execute_with wr fin c ins = execute_with wr' fin' c ins := by
  unfold execute_with
  simp only []
  by_cases k1 : ins.opcode = 0x13
  · simp only [k1, ↓reduceIte, h1]
  by_cases k2 : ins.opcode = 0x33
  · simp only [k2, ↓reduceIte, Nat.reduceEqDiff, h1]
  by_cases k3 : ins.opcode = 0x03
  · simp only [k3, ↓reduceIte, Nat.reduceEqDiff, h1]
  by_cases k4 : ins.opcode = 0x23
  · simp only [k4, ↓reduceIte, Nat.reduceEqDiff]
    exact then_finish_with_congr fin fin' _ _ (fun _ => h2 _ _ (store_frame c _ _ _ _).2.1)
  by_cases k5 : ins.opcode = 0x63
  · simp only [k5, ↓reduceIte, Nat.reduceEqDiff]
    exact h2 _ _ rfl
  by_cases k6 : ins.opcode = 0x6F
  · simp only [k6, ↓reduceIte, Nat.reduceEqDiff, h1]
  by_cases k7 : ins.opcode = 0x67
  · simp only [k7, ↓reduceIte, Nat.reduceEqDiff, h1]
  by_cases k8 : ins.opcode = 0x37
  · simp only [k8, ↓reduceIte, Nat.reduceEqDiff, h1]
  by_cases k9 : ins.opcode = 0x17
  · simp only [k9, ↓reduceIte, Nat.reduceEqDiff, h1]
  by_cases k10 : ins.opcode = 0x73
  · simp only [k10, ↓reduceIte, Nat.reduceEqDiff]
    exact then_finish_with_congr fin fin' _ _ (fun _ => h2 _ _ (system_frame c _ _).1)
  · simp only [k1, k2, k3, k4, k5, k6, k7, k8, k9, k10, ↓reduceIte]

/-- The method `execute` is the instance of `execute_with` at `write_rd` and `finish`. -/
theorem execute_with_self (c : RISCVCpu) (ins : Instruction) :
    execute_with write_rd finish c ins = execute c ins := by
  unfold execute_with execute then_finish_with then_finish
  rfl

/-- C19. Re-zeroing versus refusing the write: from a machine state whose register 0 is zero,
for any instruction, `execute` as written, the executor that skips destination writes when
`rd = 0` and never re-zeroes, and the executor that performs every destination write and sets
register 0 to zero at the end of the step all give the same state, registers, memory, program
counter and output, and the same outcome, completion, fatal condition or exit. -/
theorem rezero_equivalent (c : RISCVCpu) (ins : Instruction) (h0 : c.reg[0]? = some 0) :
    execute_skip c ins = execute c ins ∧ execute_rezero c ins = execute c ins := by
  constructor
  · unfold execute_skip
    rw [← execute_with_self]
    apply execute_with_congr
    · intro rd v next_pc
      unfold finish finish_keep
      congr 2
      apply (set_zero_of_zero _ _).symm
      unfold write_rd
      split_ifs with h
      · show (c.reg.set rd v)[0]? = some 0
        rw [List.getElem?_set_ne h, h0]
      · exact h0
    · intro c1 next_pc hreg
      unfold finish finish_keep
      congr 2
      exact (set_zero_of_zero _ (by rw [hreg]; exact h0)).symm
  · unfold execute_rezero
    rw [← execute_with_self]
    apply execute_with_congr
    · intro rd v next_pc
      unfold finish write_rd write_rd_always
      split_ifs with h
      · rfl
      · have e : rd = 0 := by omega
        subst e
        simp only [List.set_set]
    · intro c1 next_pc _
      rfl

theorem rezero_equivalent_witness :
    execute_skip ⟨List.replicate 32 0, 0, [], []⟩ ⟨0x13, 0, 0, 0, 0, 0, 5⟩
      = execute ⟨List.replicate 32 0, 0, [], []⟩ ⟨0x13, 0, 0, 0, 0, 0, 5⟩ ∧
    execute_rezero ⟨List.replicate 32 0, 0, [], []⟩ ⟨0x13, 0, 0, 0, 0, 0, 5⟩
      = execute ⟨List.replicate 32 0, 0, [], []⟩ ⟨0x13, 0, 0, 0, 0, 0, 5⟩ :=
  rezero_equivalent ⟨List.replicate 32 0, 0, [], []⟩ ⟨0x13, 0, 0, 0, 0, 0, 5⟩ (by decide)

/-! ### Programs loaded at address 0 of a new machine -/

theorem load_program_new (memory_size : Nat) (program : List Nat) :
    load_program (RISCVCpu.new memory_size) program 0
      = ⟨List.replicate 32 0, 0,
          (load_program (RISCVCpu.new memory_size) program 0).mem, []⟩ := rfl

theorem load_program_length_ge (c : RISCVCpu) (program : List Nat) (address : Nat)
    (hsize : address + program.length < 2 ^ 64) :
    address + program.length ≤ (load_program c program address).mem.length := by
  unfold load_program
  simp only [copy_length, sizeT_of_lt _ hsize]
  split_ifs with h
  · rw [List.length_append, List.length_replicate]; omega
  · omega

theorem load_program_getElem?_inside (c : RISCVCpu) (program : List Nat) (address : Nat)
    (hsize : address + program.length < 2 ^ 64) (i : Nat) (hi : i < program.length) :
    (load_program c program address).mem[address + i]? = program[i]? := by
  have hlen := load_program_length_ge c program address hsize
  unfold load_program at hlen ⊢
  simp only [copy_length] at hlen
  exact copy_getElem?_inside program address _ i hlen hi

/-- A step of a machine that runs inside a program loaded at address 0 executes the word of
the program at the program counter. -/
theorem step_loaded (memory_size : Nat) (program : List Nat) (reg : List Nat) (k : Nat)
    (out : List Nat) (hk : k + 4 ≤ program.length) (hp : program.length < 2 ^ 32) :
    step ⟨reg, k, (load_program (RISCVCpu.new memory_size) program 0).mem, out⟩
      = execute ⟨reg, k, (load_program (RISCVCpu.new memory_size) program 0).mem, out⟩
          (decode (read_loop program k 4)) := by
  have hlen := load_program_length_ge (RISCVCpu.new memory_size) program 0 (by omega)
  have hbyte : ∀ i < 4, (load_program (RISCVCpu.new memory_size) program 0).mem.getD (k + i) 0
      = program.getD (k + i) 0 := by
    intro i hi
    have h := load_program_getElem?_inside (RISCVCpu.new memory_size) program 0 (by omega)
      (k + i) (by omega)
    rw [Nat.zero_add] at h
    rw [List.getD_eq_getElem?_getD, List.getD_eq_getElem?_getD, h]
  apply step_fetched
  show read_mem _ k 4 = _
  rw [read_mem_ok _ k 4 (by rw [sizeT_of_lt _ (by omega)]; exact (by
    have : k + 4 ≤ (load_program (RISCVCpu.new memory_size) program 0).mem.length := by omega
    exact this))]
  exact congrArg Except.ok (read_loop_congr _ _ k 4 hbyte)

theorem exit_program_steps (M : List Nat) :
    execute ⟨List.replicate 32 0, 0, M, []⟩ (decode (read_loop exit_program 0 4))
      = ⟨⟨(List.replicate 32 0).set 17 1, 4, M, []⟩, .done⟩ ∧
    execute ⟨(List.replicate 32 0).set 17 1, 4, M, []⟩ (decode (read_loop exit_program 4 4))
      = ⟨⟨((List.replicate 32 0).set 17 1).set 10 42, 8, M, []⟩, .done⟩ ∧
    execute ⟨((List.replicate 32 0).set 17 1).set 10 42, 8, M, []⟩
        (decode (read_loop exit_program 8 4))
      = ⟨⟨((List.replicate 32 0).set 17 1).set 10 42, 8, M, []⟩, .exited 42⟩ :=
  ⟨rfl, rfl, rfl⟩

/-- The program `addi a7, x0, 1; addi a0, x0, 42; ecall`, loaded at address 0 of a new machine
of any memory size, exits with status 42 at its third step, with no output. -/
theorem exit_program_runs (memory_size : Nat) :
    run 3 (load_program (RISCVCpu.new memory_size) exit_program 0)
      = some ⟨⟨((List.replicate 32 0).set 17 1).set 10 42, 8,
          (load_program (RISCVCpu.new memory_size) exit_program 0).mem, []⟩, .exited 42⟩ := by
  obtain ⟨e1, e2, e3⟩ :=
    exit_program_steps (load_program (RISCVCpu.new memory_size) exit_program 0).mem
  have s1 := step_loaded memory_size exit_program (List.replicate 32 0) 0 []
    (by decide) (by decide)
  have s2 := step_loaded memory_size exit_program ((List.replicate 32 0).set 17 1) 4 []
    (by decide) (by decide)
  have s3 := step_loaded memory_size exit_program
    (((List.replicate 32 0).set 17 1).set 10 42) 8 [] (by decide) (by decide)
  rw [e1] at s1
  rw [e2] at s2
  rw [e3] at s3
  rw [load_program_new]
  unfold run
  rw [s1]
  simp only [↓reduceIte]
  unfold run
  rw [s2]
  simp only [↓reduceIte]
  unfold run
  rw [s3]
  simp only [reduceCtorEq, ↓reduceIte]

theorem run_stopped (fuel : Nat) (c : RISCVCpu) (h : (step c).outcome ≠ .done) :
    run (fuel + 1) c = some (step c) := by
  unfold run
  rw [if_neg h]

/-- C16. Exit system call: from any machine state whose register 17 (`a7`) is 1, executing the
system-call instruction (opcode 0x73, `funct3` 0, immediate 0, as the word `0x00000073`
decodes) calls `exit` with the value of register 10 (`a0`) and leaves the state as it was: no
output, no register or program-counter update; a step that fetches the word does so, and a
run that starts there ends at once with that status. The program
`addi a7, x0, 1; addi a0, x0, 42; ecall` loaded at address 0 of a new machine of any memory
size exits with status 42 at its third step, with no output. -/
theorem exit_call (c : RISCVCpu) (h17 : c.reg.getD 17 0 = 1) :
    decode 0x00000073 = ⟨0x73, 0, 0, 0, 0, 0, 0⟩ ∧
    (∀ ins : Instruction, ins.opcode = 0x73 → ins.funct3 = 0 → ins.imm = 0 →
      execute c ins = ⟨c, .exited (c.reg.getD 10 0)⟩) ∧
    (read_mem c c.pc 4 = .ok 0x00000073 →
      step c = ⟨c, .exited (c.reg.getD 10 0)⟩ ∧
      ∀ fuel, run (fuel + 1) c = some ⟨c, .exited (c.reg.getD 10 0)⟩) ∧
    (∀ memory_size, ∃ c1,
      run 3 (load_program (RISCVCpu.new memory_size) exit_program 0)
        = some ⟨c1, .exited 42⟩ ∧ c1.out = []) := by
  have hex : ∀ ins : Instruction, ins.opcode = 0x73 → ins.funct3 = 0 → ins.imm = 0 →
      execute c ins = ⟨c, .exited (c.reg.getD 10 0)⟩ := by
    intro ins hop hf3 himm
    have hsys : system c ins.funct3 ins.imm = ⟨c, .exited (c.reg.getD 10 0)⟩ := by
      unfold system handle_ecall
      rw [if_pos hf3, if_pos himm, if_pos h17]
    rw [execute_system c ins hop, hsys, then_finish_stopped _ _ (by simp)]
  refine ⟨by decide, hex, fun hr => ?_, fun memory_size => ⟨_, exit_program_runs memory_size, rfl⟩⟩
  have hstep : step c = ⟨c, .exited (c.reg.getD 10 0)⟩ := by
    rw [step_fetched c _ hr]
    exact hex _ (by decide) (by decide) (by decide)
  refine ⟨hstep, fun fuel => ?_⟩
  rw [run_stopped fuel c (by rw [hstep]; simp), hstep]

theorem exit_call_witness :
    step at_exit_call = ⟨at_exit_call, .exited 42⟩ ∧
    run 1 at_exit_call = some ⟨at_exit_call, .exited 42⟩ :=
  have h := ((exit_call at_exit_call (by decide)).2.2.1 (by decide))
  ⟨h.1, h.2 0⟩

theorem emitted_bytes (c : RISCVCpu) (n : Nat) (hbytes : ∀ b ∈ c.mem, b < 256) :
    emitted c 0 n
      = (List.range n).map (fun i => c.mem.getD ((c.reg.getD 11 0 + i) % 2 ^ 32) 0) := by
  unfold emitted
  apply List.map_congr_left
  intro i _
  rw [Nat.zero_add]
  exact Nat.mod_eq_of_lt (getD_lt_of_forall c.mem hbytes _)

/-- C15. Write system call: from a machine state that satisfies the invariant of the data
model, register 0 equal to zero, as every state of a run does, with a memory of bytes, whose
register 17 (`a7`) is 4 and in which every address `(a1 + i) mod 2 ^ 32` for `i < a2` is below
the memory length (`a1` register 11, `a2` register 12), executing the system-call instruction
(opcode 0x73, `funct3` 0, immediate 0, as the word `0x00000073` decodes) completes, appends to
the output exactly the `a2` bytes `mem[a1], mem[a1 + 1], ..., mem[a1 + a2 - 1]` in that order,
leaves all registers and memory unchanged and advances the program counter by 4 (32-bit). -/
theorem write_call (c : RISCVCpu) (ins : Instruction) (hop : ins.opcode = 0x73)
    (hf3 : ins.funct3 = 0) (himm : ins.imm = 0) (h17 : c.reg.getD 17 0 = 4)
    (h0 : c.reg[0]? = some 0) (hbytes : ∀ b ∈ c.mem, b < 256)
    (hin : ∀ i < c.reg.getD 12 0, (c.reg.getD 11 0 + i) % 2 ^ 32 < c.mem.length) :
    decode 0x00000073 = ⟨0x73, 0, 0, 0, 0, 0, 0⟩ ∧
    (execute c ins).outcome = .done ∧
    (execute c ins).cpu.out = c.out ++ (List.range (c.reg.getD 12 0)).map
      (fun i => c.mem.getD ((c.reg.getD 11 0 + i) % 2 ^ 32) 0) ∧
    (execute c ins).cpu.reg = c.reg ∧
    (execute c ins).cpu.mem = c.mem ∧
    (execute c ins).cpu.pc = (c.pc + 4) % 2 ^ 32 ∧
    (c.pc + 4 < 2 ^ 32 → (execute c ins).cpu.pc = c.pc + 4) := by
  have hsys := system_write_call c ins ⟨hop, hf3, himm, h17⟩
  obtain ⟨hdone, hstop⟩ := ecall_write_out (c.reg.getD 12 0) 0 c
  obtain ⟨f1, f2, _, _, _⟩ := ecall_write_frame (c.reg.getD 12 0) 0 c
  have hd : (ecall_write (c.reg.getD 12 0) 0 c).outcome = .done := by
    by_contra hne
    obtain ⟨k, hk, _, hlen, _⟩ := hstop hne
    have := hin k hk
    rw [Nat.zero_add] at hlen
    omega
  rw [execute_system c ins hop, hsys, then_finish_done _ _ hd]
  refine ⟨by decide, rfl, ?_, ?_, f2, rfl, fun h => ?_⟩
  · show (ecall_write (c.reg.getD 12 0) 0 c).cpu.out = _
    rw [hdone hd, emitted_bytes c _ hbytes]
  · show (ecall_write (c.reg.getD 12 0) 0 c).cpu.reg.set 0 0 = _
    rw [f1, set_zero_of_zero _ h0]
  · show (c.pc + 4) % 2 ^ 32 = c.pc + 4
    omega

theorem write_call_witness :
    (execute write_hi (decode 0x00000073)).cpu.out = [0x68, 0x69, 0x0A] ∧
    (execute write_hi (decode 0x00000073)).cpu.reg = write_hi.reg ∧
    (execute write_hi (decode 0x00000073)).cpu.pc = 4 :=
  have h := write_call write_hi (decode 0x00000073) (by decide) (by decide) (by decide)
    (by decide) (by decide) (by decide) (by decide)
  ⟨h.2.2.1.trans (by decide), h.2.2.2.1, h.2.2.2.2.2.1.trans (by decide)⟩

theorem addi_word_eq (rd rs1 : Nat) (imm : Int) (hrd : rd < 32) (hrs1 : rs1 < 32) :
    addi_word rd rs1 imm = (imm % 4096).toNat * 2 ^ 20 + rs1 * 2 ^ 15 + rd * 2 ^ 7 + 0x13 := by
  unfold addi_word
  generalize (imm % 4096).toNat = i
  rw [Nat.shiftLeft_eq, Nat.shiftLeft_eq, Nat.shiftLeft_eq]
  have e1 : i * 2 ^ 20 ||| rs1 * 2 ^ 15 = i * 2 ^ 20 + rs1 * 2 ^ 15 := by
    rw [Nat.mul_comm i, ← Nat.mul_add_lt_is_or (by omega)]
  have e2 : i * 2 ^ 20 + rs1 * 2 ^ 15 ||| rd * 2 ^ 7
      = i * 2 ^ 20 + rs1 * 2 ^ 15 + rd * 2 ^ 7 := by
    have e : i * 2 ^ 20 + rs1 * 2 ^ 15 = 2 ^ 15 * (i * 2 ^ 5 + rs1) := by omega
    rw [e, ← Nat.mul_add_lt_is_or (by omega)]
  have e3 : i * 2 ^ 20 + rs1 * 2 ^ 15 + rd * 2 ^ 7 ||| 0x13
      = i * 2 ^ 20 + rs1 * 2 ^ 15 + rd * 2 ^ 7 + 0x13 := by
    have e : i * 2 ^ 20 + rs1 * 2 ^ 15 + rd * 2 ^ 7 = 2 ^ 7 * (i * 2 ^ 13 + rs1 * 2 ^ 8 + rd) := by
      omega
    rw [e, ← Nat.mul_add_lt_is_or (by omega)]
  rw [e1, e2, e3]

/-- The fields that `decode` finds in the encoding of `addi rd, rs1, imm`. -/
theorem decode_addi_word (rd rs1 : Nat) (imm : Int) (hrd : rd < 32) (hrs1 : rs1 < 32)
    (himm : -2048 ≤ imm ∧ imm ≤ 2047) :
    addi_word rd rs1 imm < 2 ^ 32 ∧
    (decode (addi_word rd rs1 imm)).opcode = 0x13 ∧
    (decode (addi_word rd rs1 imm)).rd = rd ∧
    (decode (addi_word rd rs1 imm)).funct3 = 0 ∧
    (decode (addi_word rd rs1 imm)).rs1 = rs1 ∧
    (decode (addi_word rd rs1 imm)).imm = imm := by
  have hw := addi_word_eq rd rs1 imm hrd hrs1
  generalize addi_word rd rs1 imm = w at hw ⊢
  have hi : (imm % 4096).toNat < 4096 := by omega
  have hop : w &&& 0x7F = 0x13 := by
    rw [show (0x7F : Nat) = 2 ^ 7 - 1 from rfl, Nat.and_pow_two_sub_one_eq_mod]; omega
  refine ⟨by omega, hop, ?_, ?_, ?_, ?_⟩
  · show (w >>> 7) &&& 0x1F = rd
    rw [show (0x1F : Nat) = 2 ^ 5 - 1 from rfl, Nat.and_pow_two_sub_one_eq_mod,
      Nat.shiftRight_eq_div_pow]
    omega
  · show (w >>> 12) &&& 0x7 = 0
    rw [show (0x7 : Nat) = 2 ^ 3 - 1 from rfl, Nat.and_pow_two_sub_one_eq_mod,
      Nat.shiftRight_eq_div_pow]
    omega
  · show (w >>> 15) &&& 0x1F = rs1
    rw [show (0x1F : Nat) = 2 ^ 5 - 1 from rfl, Nat.and_pow_two_sub_one_eq_mod,
      Nat.shiftRight_eq_div_pow]
    omega
  · show decode_imm w (w &&& 0x7F) = imm
    unfold decode_imm
    rw [hop, if_pos (by decide), Int.shiftRight_eq_div_pow]
    unfold toS32
    norm_num
    split_ifs <;> omega

/-- The fetch of a word whose four bytes sit at the program counter, little-endian. -/
theorem fetch_word (c : RISCVCpu) (w : Nat) (hw : w < 2 ^ 32) (hpc : c.pc < 2 ^ 32)
    (hb : c.pc + 4 ≤ c.mem.length)
    (hword : ∀ i < 4, c.mem.getD (c.pc + i) 0 = (w >>> (8 * i)) % 256) :
    read_mem c c.pc 4 = .ok w := by
  rw [read_mem_ok c c.pc 4 (by rw [sizeT_of_lt _ (by omega)]; exact hb)]
  congr 1
  unfold read_loop
  rw [range_four]
  simp only [List.foldl_cons, List.foldl_nil]
  rw [hword 0 (by omega), hword 1 (by omega), hword 2 (by omega), hword 3 (by omega),
    or_bytes4 _ _ _ _ (Nat.mod_lt _ (by decide)) (Nat.mod_lt _ (by decide))
      (Nat.mod_lt _ (by decide)) (Nat.mod_lt _ (by decide)),
    Nat.shiftRight_eq_div_pow, Nat.shiftRight_eq_div_pow, Nat.shiftRight_eq_div_pow,
    Nat.shiftRight_eq_div_pow]
  omega

theorem addi_program_steps (M : List Nat) :
    execute ⟨List.replicate 32 0, 0, M, []⟩ (decode (read_loop addi_program 0 4))
      = ⟨⟨(List.replicate 32 0).set 1 5, 4, M, []⟩, .done⟩ ∧
    execute ⟨(List.replicate 32 0).set 1 5, 4, M, []⟩ (decode (read_loop addi_program 4 4))
      = ⟨⟨((List.replicate 32 0).set 1 5).set 2 15, 8, M, []⟩, .done⟩ :=
  ⟨rfl, rfl⟩

/-- An OP-IMM instruction on a state given field by field. -/
theorem execute_op_imm_at (reg : List Nat) (pc : Nat) (M out : List Nat) (ins : Instruction)
    (v next_pc : Nat) (reg1 : List Nat) (h : ins.opcode = 0x13)
    (hv : op_imm ins.funct3 (reg.getD ins.rs1 0) ins.imm = v)
    (hn : (pc + 4) % 2 ^ 32 = next_pc)
    (hr : (if ins.rd ≠ 0 then reg.set ins.rd v else reg).set 0 0 = reg1) :
    execute ⟨reg, pc, M, out⟩ ins = ⟨⟨reg1, next_pc, M, out⟩, .done⟩ := by
  rw [execute_op_imm _ ins h]
  simp only [hv, hn]
  unfold finish write_rd
  rw [← hr]
  split_ifs <;> rfl

/-- A LUI instruction on a state given field by field. -/
theorem execute_lui_at (reg : List Nat) (pc : Nat) (M out : List Nat) (ins : Instruction)
    (v next_pc : Nat) (reg1 : List Nat) (h : ins.opcode = 0x37)
    (hv : toU32 ins.imm = v) (hn : (pc + 4) % 2 ^ 32 = next_pc)
    (hr : (if ins.rd ≠ 0 then reg.set ins.rd v else reg).set 0 0 = reg1) :
    execute ⟨reg, pc, M, out⟩ ins = ⟨⟨reg1, next_pc, M, out⟩, .done⟩ := by
  rw [execute_lui _ ins h]
  simp only [hv, hn]
  unfold finish write_rd
  rw [← hr]
  split_ifs <;> rfl

theorem lui_addi_program_steps (M : List Nat) :
    execute ⟨List.replicate 32 0, 0, M, []⟩ (decode (read_loop lui_addi_program 0 4))
      = ⟨⟨(List.replicate 32 0).set 1 0x1000, 4, M, []⟩, .done⟩ ∧
    execute ⟨(List.replicate 32 0).set 1 0x1000, 4, M, []⟩
        (decode (read_loop lui_addi_program 4 4))
      = ⟨⟨(List.replicate 32 0).set 1 0xFFF, 8, M, []⟩, .done⟩ :=
  ⟨execute_lui_at _ _ _ _ _ 0x1000 _ _ (by decide) (by decide) (by decide) (by decide),
   execute_op_imm_at _ _ _ _ _ 0xFFF _ _ (by decide) (by decide) (by decide) (by decide)⟩

/-- The program `addi x1, x0, 5; addi x2, x1, 10` on a new machine of any memory size: after
two steps `x1 = 5` and `x2 = 15`. -/
theorem addi_program_runs (memory_size : Nat) :
    step (step (load_program (RISCVCpu.new memory_size) addi_program 0)).cpu
      = ⟨⟨((List.replicate 32 0).set 1 5).set 2 15, 8,
          (load_program (RISCVCpu.new memory_size) addi_program 0).mem, []⟩, .done⟩ := by
  obtain ⟨e1, e2⟩ :=
    addi_program_steps (load_program (RISCVCpu.new memory_size) addi_program 0).mem
  have s1 := step_loaded memory_size addi_program (List.replicate 32 0) 0 []
    (by decide) (by decide)
  have s2 := step_loaded memory_size addi_program ((List.replicate 32 0).set 1 5) 4 []
    (by decide) (by decide)
  rw [e1] at s1
  rw [e2] at s2
  rw [load_program_new, s1]
  exact s2

/-- The program `lui x1, 0x1; addi x1, x1, -1` on a new machine of any memory size: after two
steps `x1 = 0x00000FFF`. -/
theorem lui_addi_program_runs (memory_size : Nat) :
    step (step (load_program (RISCVCpu.new memory_size) lui_addi_program 0)).cpu
      = ⟨⟨(List.replicate 32 0).set 1 0xFFF, 8,
          (load_program (RISCVCpu.new memory_size) lui_addi_program 0).mem, []⟩, .done⟩ := by
  obtain ⟨e1, e2⟩ :=
    lui_addi_program_steps (load_program (RISCVCpu.new memory_size) lui_addi_program 0).mem
  have s1 := step_loaded memory_size lui_addi_program (List.replicate 32 0) 0 []
    (by decide) (by decide)
  have s2 := step_loaded memory_size lui_addi_program ((List.replicate 32 0).set 1 0x1000) 4 []
    (by decide) (by decide)
  rw [e1] at s1
  rw [e2] at s2
  rw [load_program_new, s1]
  exact s2

/-- C12. ADDI end to end: from a machine state that satisfies the invariant of the data
model, register 0 equal to zero, as every state of a run does, with its 32 registers, whose
program counter `pc` satisfies `pc + 4 <= memory length` and whose four bytes at `pc` hold,
little-endian, the word `addi_word rd rs1 imm` with `rd` in 1..31, `rs1` in 0..31 and `imm` in
`[-2048, 2047]`, one step completes, sets register `rd` to `(old rs1 value + imm) mod 2 ^ 32`,
changes no other register, no memory byte and no output, and sets the program counter to
`pc + 4` (32-bit). On a new machine of any memory size, `addi x1, x0, 5; addi x2, x1, 10`
leaves `x1 = 5` and `x2 = 15` after two steps, and `lui x1, 0x1; addi x1, x1, -1` leaves
`x1 = 0x00000FFF`. -/
theorem addi_step (c : RISCVCpu) (rd rs1 : Nat) (imm : Int) (hlen : c.reg.length = 32)
    (h0 : c.reg[0]? = some 0)
    (hpc : c.pc < 2 ^ 32) (hb : c.pc + 4 ≤ c.mem.length) (hrd : 1 ≤ rd ∧ rd ≤ 31)
    (hrs1 : rs1 ≤ 31) (himm : -2048 ≤ imm ∧ imm ≤ 2047)
    (hword : ∀ i < 4, c.mem.getD (c.pc + i) 0 = (addi_word rd rs1 imm >>> (8 * i)) % 256) :
    ((step c).outcome = .done ∧
      (step c).cpu.reg[rd]? = some (toU32 ((c.reg.getD rs1 0 : Int) + imm)) ∧
      (∀ j, j ≠ rd → (step c).cpu.reg[j]? = c.reg[j]?) ∧
      (step c).cpu.reg = c.reg.set rd (toU32 ((c.reg.getD rs1 0 : Int) + imm)) ∧
      (step c).cpu.mem = c.mem ∧ (step c).cpu.out = c.out ∧
      (step c).cpu.pc = (c.pc + 4) % 2 ^ 32 ∧
      (c.pc + 4 < 2 ^ 32 → (step c).cpu.pc = c.pc + 4)) ∧
    (∀ memory_size, ∃ c2,
      (step (step (load_program (RISCVCpu.new memory_size) addi_program 0)).cpu).cpu = c2 ∧
      c2.reg[1]? = some 5 ∧ c2.reg[2]? = some 15) ∧
    (∀ memory_size, ∃ c2,
      (step (step (load_program (RISCVCpu.new memory_size) lui_addi_program 0)).cpu).cpu = c2 ∧
      c2.reg[1]? = some 0x00000FFF) := by
  refine ⟨?_, fun memory_size => ⟨_, rfl, ?_⟩, fun memory_size => ⟨_, rfl, ?_⟩⟩
  · obtain ⟨hw, d1, d2, d3, d4, d5⟩ := decode_addi_word rd rs1 imm (by omega) (by omega) himm
    rw [step_fetched c _ (fetch_word c _ hw hpc hb hword),
      execute_op_imm c _ d1, d2, d3, d4, d5]
    have hv : op_imm 0 (c.reg.getD rs1 0) imm = toU32 ((c.reg.getD rs1 0 : Int) + imm) := by
      unfold op_imm
      rw [if_pos rfl, add_toU32]
    rw [hv]
    obtain ⟨h1, h2, h3, h4, _, h6, h7, h8⟩ := finish_write_rd c rd
      (toU32 ((c.reg.getD rs1 0 : Int) + imm)) ((c.pc + 4) % 2 ^ 32)
    refine ⟨h1, h6 (by omega) (by omega), fun j hj => ?_, ?_, h3, h4, h2,
      fun h => by rw [h2]; omega⟩
    · by_cases hj0 : j = 0
      · subst hj0; rw [h7 (by omega), h0]
      · exact h8 j hj0 hj
    · show (write_rd c rd (toU32 ((c.reg.getD rs1 0 : Int) + imm))).reg.set 0 0 = _
      unfold write_rd
      rw [if_pos (by omega)]
      apply set_zero_of_zero
      show (c.reg.set rd (toU32 ((c.reg.getD rs1 0 : Int) + imm)))[0]? = some 0
      rw [List.getElem?_set_ne (by omega), h0]
  · rw [addi_program_runs memory_size]
    exact ⟨rfl, rfl⟩
  · rw [lui_addi_program_runs memory_size]
    rfl

theorem addi_step_witness :
    (step (load_program (RISCVCpu.new 16) addi_program 0)).cpu.reg[1]? = some 5 ∧
    (step (step (load_program (RISCVCpu.new 16) addi_program 0)).cpu).cpu.reg[2]?
      = some 15 :=
  ⟨((addi_step (load_program (RISCVCpu.new 16) addi_program 0) 1 0 5 (by decide) (by decide)
      (by decide) (by decide) (by decide) (by decide) (by decide) (by decide)).1.2.1).trans
      (by decide),
   ((addi_step (step (load_program (RISCVCpu.new 16) addi_program 0)).cpu 2 1 10 (by decide)
      (by decide) (by decide) (by decide) (by decide) (by decide) (by decide)
      (by decide)).1.2.1).trans (by decide)⟩

end RISCV
